import Mathlib

/-!
# In-flight instruction tracker (`src/mypredictor.cc`)

A shallow embedding of `wangh::ImemInst` and `wangh::InstTracker`.

* `std::unordered_map<K, V>` is an association list `List (K × V)`; a new key
  is appended, an existing key is updated in place, `erase` drops the key.
* Sequence numbers, program counters, register numbers, addresses and produced
  values are `uint64_t` in the source; they are naturals here and the one
  operation on them that wraps in practice, the stride subtraction, is taken
  modulo `2 ^ 64`.
* The retire / occurrence counters and the latency sum are naturals: they only
  ever grow by one (or by a latency) per retirement, and a run stays far below
  the `2 ^ 64 / 100` retirements at which the product `100 * count` of
  `get_pattern` would leave the range of `uint64_t`.
-/

namespace wangh

/-! ## Association-list maps -/

/-- The `std::unordered_map::count` of a key: `1` when present, `0` otherwise. -/
def mapCount {V : Type} (m : List (Nat × V)) (k : Nat) : Nat :=
  if m.any (fun e => e.1 == k) then 1 else 0

/-- Lookup of a key (the record `m[k]` of a key that is present). -/
def mapFind {V : Type} : List (Nat × V) → Nat → Option V
  | [], _ => none
  | (k', v) :: rest, k => if k' = k then some v else mapFind rest k

/-- The assignment `m[k] = v`: replaces the record of `k`, or adds `k`. -/
def mapSet {V : Type} : List (Nat × V) → Nat → V → List (Nat × V)
  | [], k, v => [(k, v)]
  | (k', v') :: rest, k, v =>
    if k' = k then (k', v) :: rest else (k', v') :: mapSet rest k v

/-- The call `m.erase(k)`. -/
def mapErase {V : Type} (m : List (Nat × V)) (k : Nat) : List (Nat × V) :=
  m.filter (fun e => !(e.1 == k))

/-- The keys of a map. -/
def mapKeys {V : Type} (m : List (Nat × V)) : List Nat :=
  m.map Prod.fst

/-! ## Dynamic instruction records -/

/-- The sentinel `0xdeadbeef`. -/
def deadbeef : Nat := 0xdeadbeef

/-- The record of one dynamic instruction (`DynInst`). -/
structure DynInst where
  pc_ : Nat
  piece_ : Nat
  is_candidate_ : Bool
  cache_hit_ : Nat
  inst_class_ : Nat
  src_regs_ : List Nat
  dst_reg_ : Nat
  addr_ : Nat
  value_ : Nat
  latency_ : Nat
deriving DecidableEq, Repr

/-- Modelled from the spec: the constructor `DynInst(pc, piece, is_candidate,
cache_hit)` is declared in `mypredictor.h`, which is not among the sources.
The record is created "with the given identity and candidacy flag" and "stores
cache-hit as its first known attribute"; the fields filled in later start as
absent operands and zeroes. -/
def DynInst.new (pc piece : Nat) (is_candidate : Bool) (cache_hit : Nat) : DynInst :=
  { pc_ := pc, piece_ := piece, is_candidate_ := is_candidate, cache_hit_ := cache_hit,
    inst_class_ := 0, src_regs_ := [], dst_reg_ := deadbeef,
    addr_ := 0, value_ := 0, latency_ := 0 }

/-- Modelled from the spec: `DynInst::setMetaInfo` is declared in
`mypredictor.h`, which is not among the sources. It "mutates the matching
record's instruction class and operand identities in place". -/
def DynInst.setMetaInfo (d : DynInst) (inst_class src1 src2 src3 dst : Nat) : DynInst :=
  { d with inst_class_ := inst_class, src_regs_ := [src1, src2, src3], dst_reg_ := dst }

/-- Modelled from the spec: `DynInst::setFinalInfo` is declared in
`mypredictor.h`, which is not among the sources. It "finalizes the record with
address, produced value, latency". -/
def DynInst.setFinalInfo (d : DynInst) (addr value latency : Nat) : DynInst :=
  { d with addr_ := addr, value_ := value, latency_ := latency }

/-- Modelled from the spec: `DynInst::getPcStr` is declared in `mypredictor.h`,
which is not among the sources. It is the "program counter (rendered as a
canonical string)"; the rendering is one-to-one, so the key of the per-PC table
is the program counter itself. -/
def DynInst.getPcStr (d : DynInst) : Nat := d.pc_

/-! ## Static instruction profiles -/

/-- Modelled from the spec: `addValueToMap` is declared in `mypredictor.h`,
which is not among the sources. A distribution maps "a 64-bit key to an
occurrence count"; adding a value counts one more occurrence of it. -/
def addValueToMap : List (Nat × Nat) → Nat → List (Nat × Nat)
  | [], k => [(k, 1)]
  | (k', c) :: rest, k =>
    if k' = k then (k', c + 1) :: rest else (k', c) :: addValueToMap rest k

/-- The difference `a - b` of two `uint64_t`. -/
def sub64 (a b : Nat) : Nat := (a % 2 ^ 64 + (2 ^ 64 - b % 2 ^ 64)) % 2 ^ 64

/-- The profile of one static instruction (`ImemInst`). -/
structure ImemInst where
  pc_str_ : Nat
  inst_class_ : Nat
  is_candidate_ : Bool
  dst_reg_ : Nat
  src_regs_ : List Nat
  count_ : Nat
  total_latency_ : Nat
  last_value_ : Nat
  cache_hit_map_ : List (Nat × Nat)
  value_map_ : List (Nat × Nat)
  stride_map_ : List (Nat × Nat)
deriving DecidableEq, Repr

/-- The constructor `ImemInst::ImemInst(dynamic_inst)`. -/
def ImemInst.new (dynamic_inst : DynInst) : ImemInst :=
  { pc_str_ := dynamic_inst.getPcStr,
    inst_class_ := dynamic_inst.inst_class_,
    is_candidate_ := dynamic_inst.is_candidate_,
    dst_reg_ := dynamic_inst.dst_reg_,
    src_regs_ := dynamic_inst.src_regs_,
    count_ := 0,
    total_latency_ := 0,
    last_value_ := deadbeef,
    cache_hit_map_ := [], value_map_ := [], stride_map_ := [] }

/-- The method `ImemInst::addDynInst`. -/
def ImemInst.addDynInst (m : ImemInst) (dynamic_inst : DynInst) : ImemInst :=
  let m1 := { m with count_ := m.count_ + 1,
                     total_latency_ := m.total_latency_ + dynamic_inst.latency_ }
  if m1.is_candidate_ then
    let m2 := { m1 with cache_hit_map_ := addValueToMap m1.cache_hit_map_ dynamic_inst.cache_hit_ }
    let m3 := { m2 with value_map_ := addValueToMap m2.value_map_ dynamic_inst.value_ }
    let m4 :=
      if m3.last_value_ ≠ deadbeef then
        let stride := sub64 dynamic_inst.value_ m3.last_value_
        { m3 with stride_map_ := addValueToMap m3.stride_map_ stride }
      else m3
    { m4 with last_value_ := dynamic_inst.value_ }
  else m1

/-! ## The tracker -/

/-- The state of `InstTracker`. -/
structure InstTracker where
  inflight_insts_ : List (Nat × DynInst)
  tracked_insts_ : List (Nat × ImemInst)
  last_retired_seq_no_ : Nat
  total_count_ : Nat
deriving DecidableEq, Repr

/-- Modelled from the spec: the member initialisers of `InstTracker` are in
`mypredictor.h`, which is not among the sources. The tracker starts with both
tables empty, last-retired sequence number 0 and total retired count 0. -/
def InstTracker.empty : InstTracker :=
  { inflight_insts_ := [], tracked_insts_ := [], last_retired_seq_no_ := 0, total_count_ := 0 }

/-- The method `InstTracker::addInstIssue` (onIssue). -/
def InstTracker.addInstIssue (t : InstTracker) (seq_no pc piece : Nat)
    (is_candidate : Bool) (cache_hit : Nat) : InstTracker :=
  if mapCount t.inflight_insts_ seq_no > 0 then
    t
  else
    let dynamic_inst := DynInst.new pc piece is_candidate cache_hit
    { t with inflight_insts_ := mapSet t.inflight_insts_ seq_no dynamic_inst }

/-- The method `InstTracker::addInstExec` (onExecute). -/
def InstTracker.addInstExec (t : InstTracker) (seq_no inst_class src1 src2 src3 dst : Nat) :
    InstTracker :=
  if mapCount t.inflight_insts_ seq_no = 0 then
    t
  else
    match mapFind t.inflight_insts_ seq_no with
    | none => t
    | some d =>
      { t with inflight_insts_ :=
          mapSet t.inflight_insts_ seq_no (d.setMetaInfo inst_class src1 src2 src3 dst) }

/-- The loop `for (i = last_retired_seq_no_; i < seq_no; ++i)` of
`addInstRetire`, erasing `i` when it is in flight. -/
def flushSweep (inflight : List (Nat × DynInst)) (last seq_no : Nat) : List (Nat × DynInst) :=
  (List.range' last (seq_no - last)).foldl
    (fun m i => if mapCount m i > 0 then mapErase m i else m) inflight

/-- The `else` branch of `addInstRetire`: finalize the record and fold it into
the profile of its program counter, creating the profile when there is none. -/
def retireFold (t : InstTracker) (seq_no : Nat) (d : DynInst) (addr value latency : Nat) :
    InstTracker :=
  let dynamic_inst := d.setFinalInfo addr value latency
  let inflight := mapSet t.inflight_insts_ seq_no dynamic_inst
  let key := dynamic_inst.getPcStr
  let tracked :=
    if mapCount t.tracked_insts_ key = 0 then
      mapSet t.tracked_insts_ key (ImemInst.new dynamic_inst)
    else t.tracked_insts_
  let tracked :=
    match mapFind tracked key with
    | none => tracked
    | some imem_inst => mapSet tracked key (imem_inst.addDynInst dynamic_inst)
  { t with inflight_insts_ := inflight, tracked_insts_ := tracked }

/-- The method `InstTracker::addInstRetire` (onRetire). -/
def InstTracker.addInstRetire (t : InstTracker) (seq_no addr value latency : Nat) :
    InstTracker :=
  let t1 := { t with total_count_ := t.total_count_ + 1 }
  let t2 :=
    if mapCount t1.inflight_insts_ seq_no = 0 then
      t1
    else
      match mapFind t1.inflight_insts_ seq_no with
      | none => t1
      | some d => retireFold t1 seq_no d addr value latency
  { t2 with inflight_insts_ := flushSweep t2.inflight_insts_ t2.last_retired_seq_no_ seq_no,
            last_retired_seq_no_ := seq_no }

/-! ## Distribution summaries (`get_pattern` of `ImemInst::getDisplayStr`) -/

/-- The comparator handed to `std::sort`: `a.second > b.second`. -/
def patternBefore (a b : Nat × Nat) : Bool := decide (a.2 > b.2)

/-- Insertion of one entry into a sorted vector, before the first entry the
comparator puts it in front of. -/
def sortInsert (x : Nat × Nat) : List (Nat × Nat) → List (Nat × Nat)
  | [] => [x]
  | y :: ys => if patternBefore x y then x :: y :: ys else y :: sortInsert x ys

/-- The vector `patterns(dist.begin(), dist.end())` after `std::sort` with the
comparator `patternBefore`. -/
def sortPatterns : List (Nat × Nat) → List (Nat × Nat)
  | [] => []
  | x :: xs => sortInsert x (sortPatterns xs)

/-- The output of `std::hex` for an unsigned number. -/
def hexStr (n : Nat) : String := String.mk (Nat.toDigits 16 n)

/-- The output of `std::dec` for an unsigned number. -/
def decStr (n : Nat) : String := String.mk (Nat.toDigits 10 n)

/-- The number of slots of a summary (`top_n`). -/
def top_n : Nat := 4

/-- The value `eff_count` of `get_pattern`. -/
def ImemInst.effCount (m : ImemInst) (stride : Bool) : Nat :=
  if stride then m.count_ - 1 else m.count_

/-- The text `get_pattern` writes for the key of an entry. The negation
`-stride_val` of the least `int64_t` wraps to itself, and `std::hex` writes a
signed number by its bits, so that the magnitude `2 ^ 63` is written. -/
def keyStr (key : Nat) (stride : Bool) : String :=
  if stride then
    if 2 ^ 63 ≤ key % 2 ^ 64 then
      "-0x" ++ hexStr (2 ^ 64 - key % 2 ^ 64) ++ "/"
    else
      "0x" ++ hexStr (key % 2 ^ 64) ++ "/"
  else
    "0x" ++ hexStr key ++ "/"

/-- The text of an entry in a slot: key, count and percentage. -/
def entryStr (p : Nat × Nat) (stride : Bool) (eff_count : Nat) : String :=
  keyStr p.1 stride ++ decStr p.2 ++ "/" ++ decStr (100 * p.2 / eff_count) ++ "%"

/-- The text `get_pattern` writes in iteration `i` of its loop, before the
separator. The division `100 * count / eff_count` has no result when
`eff_count` is zero. -/
def slotStr (patterns : List (Nat × Nat)) (stride : Bool) (eff_count i : Nat) :
    Option String :=
  match patterns[i]? with
  | some p => if eff_count = 0 then none else some (entryStr p stride eff_count)
  | none => some "-"

/-- The lambda `get_pattern` of `ImemInst::getDisplayStr`. -/
def ImemInst.get_pattern (m : ImemInst) (dist : List (Nat × Nat)) (stride : Bool) :
    Option String :=
  let patterns := sortPatterns dist
  let eff_count := m.effCount stride
  (List.range top_n).foldl
    (fun pss i =>
      match pss, slotStr patterns stride eff_count i with
      | some acc, some slot => some (acc ++ slot ++ (if i < top_n - 1 then ", " else ""))
      | _, _ => none)
    (some "")


/-! ## Single and double precision (`float weight = 100.0 * count_ / total_count_`)

Floating-point values are exact fractions `(numerator, denominator)`; every
operation of the source is the exact operation followed by rounding to the
nearest representable number, ties to even. The values at hand, between
`100 / 2 ^ 64` and `100 * 2 ^ 64`, are in the normal range of both formats. -/

/-- The position of the leading bit of `n`, found in at most `fuel` halvings. -/
def leadingBit : Nat → Nat → Nat
  | 0, _ => 0
  | fuel + 1, n => if n < 2 then 0 else leadingBit fuel (n / 2) + 1

/-- Whether `2 ^ k ≤ a / b`, for an integer exponent `k`. -/
def powLe (k : Int) (a b : Nat) : Bool :=
  if 0 ≤ k then decide (b * 2 ^ k.toNat ≤ a) else decide (b ≤ a * 2 ^ (-k).toNat)

/-- The binary exponent of a positive fraction `a / b`: the integer `e` with
`2 ^ e ≤ a / b < 2 ^ (e + 1)`. -/
def binExponent (a b : Nat) : Int :=
  if powLe ((leadingBit a a : Int) - (leadingBit b b : Int)) a b then
    (leadingBit a a : Int) - (leadingBit b b : Int)
  else
    (leadingBit a a : Int) - (leadingBit b b : Int) - 1

/-- The integer nearest to `sn / sd`, ties to the even one. -/
def roundHalfEven (sn sd : Nat) : Nat :=
  if 2 * (sn % sd) < sd then sn / sd
  else if sd < 2 * (sn % sd) then sn / sd + 1
  else if (sn / sd) % 2 = 0 then sn / sd else sn / sd + 1

/-- The binary floating-point number with `p` significant bits nearest to the
fraction `x` (ties to even), as a fraction. -/
def roundFloat (p : Nat) (x : Nat × Nat) : Nat × Nat :=
  if x.1 = 0 then (0, 1)
  else
    if 0 ≤ binExponent x.1 x.2 - ((p : Int) - 1) then
      (roundHalfEven x.1 (x.2 * 2 ^ (binExponent x.1 x.2 - ((p : Int) - 1)).toNat)
        * 2 ^ (binExponent x.1 x.2 - ((p : Int) - 1)).toNat, 1)
    else
      (roundHalfEven (x.1 * 2 ^ (-(binExponent x.1 x.2 - ((p : Int) - 1))).toNat) x.2,
        2 ^ (-(binExponent x.1 x.2 - ((p : Int) - 1))).toNat)

/-- Rounding to `double` (53 significant bits). -/
def toDouble (x : Nat × Nat) : Nat × Nat := roundFloat 53 x

/-- Rounding to `float` (24 significant bits). -/
def toFloat (x : Nat × Nat) : Nat × Nat := roundFloat 24 x

/-- The exact product of two fractions. -/
def fracMul (x y : Nat × Nat) : Nat × Nat := (x.1 * y.1, x.2 * y.2)

/-- The exact quotient of two fractions. -/
def fracDiv (x y : Nat × Nat) : Nat × Nat := (x.1 * y.2, x.2 * y.1)

/-- The comparison `x < y` of two fractions. -/
def fracLt (x y : Nat × Nat) : Bool := decide (x.1 * y.2 < y.1 * x.2)

/-- The value `const float weight = 100.0 * count / total_count_`: the product
and the quotient are computed in `double`, the result is stored in a `float`. -/
def weightOf (count total_count : Nat) : Nat × Nat :=
  toFloat (toDouble (fracDiv (toDouble (fracMul (100, 1) (toDouble (count, 1))))
    (toDouble (total_count, 1))))

/-- The test `weight < 0.01` of `dumpImem`, the `float` against the `double`
constant. With `total_count_` zero the quotient is infinite or not a number,
and the comparison is false. -/
def weightBelow (count total_count : Nat) : Bool :=
  if total_count = 0 then false
  else fracLt (weightOf count total_count) (toDouble (1, 100))

/-! ## The report (`InstTracker::dumpImem`) -/

/-- What `dumpImem` writes to `std::cout`, piece by piece. -/
inductive Out where
  /-- The line `================ IMEM Start ================`. -/
  | startMarker
  /-- The text ` ... skipped `. -/
  | skipOpen
  /-- The text `N lines.` and the end of the line. -/
  | skipClose (skipped_lines : Nat)
  /-- The line of a printed profile: its count, weight, running weight and
  `getDisplayStr()`, kept as the profile and the running count. -/
  | line (inst : ImemInst) (run_count : Nat)
  /-- The line `================ IMEM End ================`. -/
  | endMarker
deriving DecidableEq, Repr

/-- The local variables of `dumpImem` and the output so far. -/
structure DumpState where
  run_count : Nat
  skipped_lines : Nat
  skipping : Bool
  out : List Out
deriving DecidableEq, Repr

/-- The state of `dumpImem` before its loop. -/
def DumpState.init : DumpState :=
  { run_count := 0, skipped_lines := 0, skipping := false, out := [Out.startMarker] }

/-- One iteration of the loop of `dumpImem`; `skipped_lines` is a `uint32_t`. -/
def dumpStep (total_count : Nat) (s : DumpState) (x : Nat × ImemInst) : DumpState :=
  let run_count := s.run_count + x.2.count_
  if weightBelow x.2.count_ total_count then
    { run_count := run_count,
      skipped_lines := (s.skipped_lines + 1) % 2 ^ 32,
      skipping := true,
      out := if !s.skipping then s.out ++ [Out.skipOpen] else s.out }
  else
    if s.skipping then
      { run_count := run_count, skipped_lines := 0, skipping := false,
        out := s.out ++ [Out.skipClose s.skipped_lines] ++ [Out.line x.2 run_count] }
    else
      { run_count := run_count, skipped_lines := s.skipped_lines, skipping := s.skipping,
        out := s.out ++ [Out.line x.2 run_count] }

/-- The loop of `dumpImem` over the completed table. -/
def dumpLoop (total_count : Nat) (tracked : List (Nat × ImemInst)) : DumpState :=
  tracked.foldl (dumpStep total_count) DumpState.init

/-- The method `InstTracker::dumpImem` (report): everything it writes. -/
def InstTracker.dumpImem (t : InstTracker) : List Out :=
  (dumpLoop t.total_count_ t.tracked_insts_).out ++ [Out.endMarker]

/-- One call from the host simulator. -/
inductive Event where
  | issue (seq_no pc piece : Nat) (is_candidate : Bool) (cache_hit : Nat)
  | exec (seq_no inst_class src1 src2 src3 dst : Nat)
  | retire (seq_no addr value latency : Nat)
deriving DecidableEq, Repr

/-- The effect of one call on the tracker. -/
def InstTracker.step (t : InstTracker) : Event → InstTracker
  | .issue seq_no pc piece is_candidate cache_hit =>
    t.addInstIssue seq_no pc piece is_candidate cache_hit
  | .exec seq_no inst_class src1 src2 src3 dst =>
    t.addInstExec seq_no inst_class src1 src2 src3 dst
  | .retire seq_no addr value latency => t.addInstRetire seq_no addr value latency

/-- The effect of a sequence of calls, first call first. -/
def InstTracker.run (t : InstTracker) (evs : List Event) : InstTracker :=
  evs.foldl InstTracker.step t

/-- The states the tracker can be in: those some sequence of calls leads to
from the empty tracker. -/
def Reachable (t : InstTracker) : Prop :=
  ∃ evs : List Event, InstTracker.empty.run evs = t

/-! ## Auxiliary definitions for the statements -/

/-- The keys the sweep from `last` up to `seq_no` leaves in place. -/
def outsideSweep (last seq_no : Nat) (s : Nat) : Bool :=
  !(decide (last ≤ s) && decide (s < seq_no))

/-- The state of `addInstRetire` when it reaches the flush sweep. -/
def beforeSweep (t : InstTracker) (seq_no addr value latency : Nat) : InstTracker :=
  let t1 := { t with total_count_ := t.total_count_ + 1 }
  if mapCount t1.inflight_insts_ seq_no = 0 then
    t1
  else
    match mapFind t1.inflight_insts_ seq_no with
    | none => t1
    | some d => retireFold t1 seq_no d addr value latency

/-- The occurrence count a distribution gives a key (0 when the key is absent). -/
def distCount (dist : List (Nat × Nat)) (key : Nat) : Nat :=
  (mapFind dist key).getD 0

/-- The sum of the occurrence counts of a distribution. -/
def distTotal (dist : List (Nat × Nat)) : Nat :=
  (dist.map Prod.snd).sum

/-- The stride between two consecutive produced values as the specification
words it: the difference `next - prev` of the integers, modulo `2 ^ 64`. -/
def strideOf (prev next : Nat) : Nat :=
  (((next : Int) - (prev : Int)) % (2 ^ 64 : Int)).toNat

/-- The strides of a sequence of produced values as the specification words
them: one for every value but the first. -/
def consecutiveStrides : List Nat → List Nat
  | a :: b :: rest => strideOf a b :: consecutiveStrides (b :: rest)
  | _ => []

/-- The profile of a static instruction after the retirements of the dynamic
instances `first :: later`, in this order: the constructor on the first
instance, then `addDynInst` for each of them. -/
def profileOf (first : DynInst) (later : List DynInst) : ImemInst :=
  (first :: later).foldl ImemInst.addDynInst (ImemInst.new first)

/-- What holds of every profile the tracker builds. -/
structure ProfileOk (p : ImemInst) : Prop where
  noncandidate : p.is_candidate_ = false → p.value_map_ = [] ∧ p.stride_map_ = []
  value_total : p.is_candidate_ = true → distTotal p.value_map_ = p.count_
  stride_total : distTotal p.stride_map_ ≤ p.count_ - 1
  fresh : p.count_ = 0 → p.last_value_ = deadbeef
  value_keys : (mapKeys p.value_map_).Nodup
  stride_keys : (mapKeys p.stride_map_).Nodup
  value_pos : ∀ e ∈ p.value_map_, 1 ≤ e.2
  stride_pos : ∀ e ∈ p.stride_map_, 1 ≤ e.2

/-- What holds of the completed table in every reachable state. -/
def TrackedOk (tracked : List (Nat × ImemInst)) : Prop :=
  ∀ e ∈ tracked, ProfileOk e.2 ∧ 1 ≤ e.2.count_

/-- The distribution of a profile that a summary is made of: the stride
distribution or the value distribution. -/
def ImemInst.distOf (m : ImemInst) (stride : Bool) : List (Nat × Nat) :=
  if stride then m.stride_map_ else m.value_map_

/-- The text of slot `i` of a summary whose divisions have a result. -/
def slotText (patterns : List (Nat × Nat)) (stride : Bool) (eff_count i : Nat) : String :=
  match patterns[i]? with
  | some p => entryStr p stride eff_count
  | none => "-"

/-- The retirements of the example of the specification: one candidate
instruction producing 10, 10, 13, 13 and 5. -/
def exampleTrace : List Event :=
  [.issue 1 4096 0 true 1, .retire 1 0 10 4, .issue 2 4096 0 true 1, .retire 2 0 10 4,
   .issue 3 4096 0 true 1, .retire 3 0 13 4, .issue 4 4096 0 true 1, .retire 4 0 13 4,
   .issue 5 4096 0 true 1, .retire 5 0 5 4]

/-- The profile the tracker has built after `exampleTrace`. -/
def exampleProfile : ImemInst :=
  { pc_str_ := 4096, inst_class_ := 0, is_candidate_ := true, dst_reg_ := deadbeef,
    src_regs_ := [], count_ := 5, total_latency_ := 20, last_value_ := 5,
    cache_hit_map_ := [(1, 5)], value_map_ := [(10, 2), (13, 2), (5, 1)],
    stride_map_ := [(0, 2), (3, 1), (2 ^ 64 - 8, 1)] }

/-- The profiles `dumpImem` elides, in iteration order. -/
def elidedProfiles (total_count : Nat) (tracked : List (Nat × ImemInst)) :
    List (Nat × ImemInst) :=
  tracked.filter (fun x => weightBelow x.2.count_ total_count)

/-- The counts `N` of the markers ` ... skipped N lines.` in an output. -/
def markerCounts : List Out → List Nat
  | [] => []
  | Out.skipClose n :: rest => n :: markerCounts rest
  | _ :: rest => markerCounts rest

/-- The number of profile lines in an output. -/
def printedLines : List Out → Nat
  | [] => 0
  | Out.line _ _ :: rest => printedLines rest + 1
  | _ :: rest => printedLines rest

/-- The sum of the retire counts of the profiles of a table. -/
def countSum (tracked : List (Nat × ImemInst)) : Nat :=
  (tracked.map (fun x => x.2.count_)).sum

/-- The number of `retire` calls of a sequence of calls, made from state `t`,
whose sequence number is not in flight when the call is made. -/
def missedRetires : InstTracker → List Event → Nat
  | _, [] => 0
  | t, .retire seq_no addr value latency :: rest =>
    (if mapCount t.inflight_insts_ seq_no = 0 then 1 else 0)
      + missedRetires (t.addInstRetire seq_no addr value latency) rest
  | t, ev :: rest => missedRetires (t.step ev) rest

/-- The signed reading of a 64-bit key (two's complement), as the
specification words it. -/
def toInt64 (k : Nat) : Int :=
  if k % 2 ^ 64 < 2 ^ 63 then (k % 2 ^ 64 : Nat) else ((k % 2 ^ 64 : Nat) : Int) - 2 ^ 64

/-- The value of a digit character. -/
def digitValue (c : Char) : Nat :=
  if c.toNat - '0'.toNat < 10 then c.toNat - '0'.toNat else c.toNat - 'a'.toNat + 10

/-- The number a string of digits denotes in a base. -/
def readDigits (base : Nat) (s : String) : Nat :=
  s.data.foldl (fun acc c => acc * base + digitValue c) 0

/-- The order of calls the specification expects, given the sequence numbers
issued so far and the last one retired: issued sequence numbers strictly
increase, retired sequence numbers strictly increase, and a retired sequence
number was issued before. -/
def orderedFrom : List Nat → Option Nat → List Event → Bool
  | _, _, [] => true
  | issued, lastRetired, .issue seq_no _ _ _ _ :: rest =>
    issued.all (fun i => decide (i < seq_no)) && orderedFrom (seq_no :: issued) lastRetired rest
  | issued, lastRetired, .exec _ _ _ _ _ _ :: rest => orderedFrom issued lastRetired rest
  | issued, lastRetired, .retire seq_no _ _ _ :: rest =>
    issued.contains seq_no
      && (match lastRetired with
          | none => true
          | some r => decide (r < seq_no))
      && orderedFrom issued (some seq_no) rest

/-- A profile of a non-candidate instruction at `pc` that has retired `count`
times with latency 1. -/
def profileWithCount (pc count : Nat) : ImemInst :=
  { ImemInst.new (DynInst.new pc 0 false 0) with count_ := count, total_latency_ := count }

/-! ## Facts about the association-list maps -/

theorem mapCount_pos_iff {V : Type} (m : List (Nat × V)) (k : Nat) :
    mapCount m k > 0 ↔ k ∈ mapKeys m := by
  unfold mapCount mapKeys
  by_cases h : m.any (fun e => e.1 == k) = true
  · simp only [h, if_true]
    simp only [List.any_eq_true, beq_iff_eq] at h
    obtain ⟨e, he, hk⟩ := h
    exact ⟨fun _ => List.mem_map.mpr ⟨e, he, hk⟩, fun _ => Nat.one_pos⟩
  · simp only [h]
    simp only [List.any_eq_true, beq_iff_eq, not_exists, not_and] at h
    constructor
    · intro h0
      simp at h0
    · intro hk
      obtain ⟨e, he, hek⟩ := List.mem_map.mp hk
      exact absurd hek (h e he)

theorem mapCount_eq_zero_iff {V : Type} (m : List (Nat × V)) (k : Nat) :
    mapCount m k = 0 ↔ k ∉ mapKeys m := by
  rw [← mapCount_pos_iff]
  omega

theorem mapFind_eq_none_iff {V : Type} (m : List (Nat × V)) (k : Nat) :
    mapFind m k = none ↔ k ∉ mapKeys m := by
  induction m with
  | nil => simp [mapFind, mapKeys]
  | cons e rest ih =>
    obtain ⟨k', v⟩ := e
    by_cases h : k' = k
    · simp [mapFind, mapKeys, h]
    · have h' : ¬ k = k' := fun hh => h hh.symm
      simp only [mapFind, h, if_false, ih]
      simp [mapKeys, h']

theorem mapFind_some_of_mem {V : Type} (m : List (Nat × V)) (k : Nat) (h : k ∈ mapKeys m) :
    ∃ v, mapFind m k = some v := by
  cases hf : mapFind m k with
  | none => exact absurd h ((mapFind_eq_none_iff m k).mp hf)
  | some v => exact ⟨v, rfl⟩

theorem mem_mapKeys_of_mapFind {V : Type} (m : List (Nat × V)) (k : Nat) (v : V)
    (h : mapFind m k = some v) : k ∈ mapKeys m := by
  by_contra hk
  rw [(mapFind_eq_none_iff m k).mpr hk] at h
  exact Option.noConfusion h

theorem mapKeys_mapSet_of_mem {V : Type} (m : List (Nat × V)) (k : Nat) (v : V)
    (h : k ∈ mapKeys m) : mapKeys (mapSet m k v) = mapKeys m := by
  induction m with
  | nil => simp [mapKeys] at h
  | cons e rest ih =>
    obtain ⟨k', v'⟩ := e
    by_cases hk : k' = k
    · simp [mapSet, mapKeys, hk]
    · have hr : k ∈ mapKeys rest := by
        have h' : ¬ k = k' := fun hh => hk hh.symm
        simpa [mapKeys, h'] using h
      have := ih hr
      simp only [mapKeys] at this
      simp [mapSet, mapKeys, hk, this]

theorem mapKeys_mapSet_of_not_mem {V : Type} (m : List (Nat × V)) (k : Nat) (v : V)
    (h : k ∉ mapKeys m) : mapKeys (mapSet m k v) = mapKeys m ++ [k] := by
  induction m with
  | nil => simp [mapSet, mapKeys]
  | cons e rest ih =>
    obtain ⟨k', v'⟩ := e
    have hk : ¬ k' = k := by
      intro hh
      apply h
      simp [mapKeys, hh]
    have hr : k ∉ mapKeys rest := by
      intro hh
      apply h
      simp only [mapKeys, List.map_cons, List.mem_cons]
      exact Or.inr hh
    have := ih hr
    simp only [mapKeys] at this
    simp [mapSet, mapKeys, hk, this]

theorem mapFind_mapSet_same {V : Type} (m : List (Nat × V)) (k : Nat) (v : V) :
    mapFind (mapSet m k v) k = some v := by
  induction m with
  | nil => simp [mapSet, mapFind]
  | cons e rest ih =>
    obtain ⟨k', v'⟩ := e
    by_cases hk : k' = k
    · simp [mapSet, mapFind, hk]
    · simp [mapSet, mapFind, hk, ih]

theorem mapFind_mapSet_other {V : Type} (m : List (Nat × V)) (k j : Nat) (v : V)
    (h : j ≠ k) : mapFind (mapSet m k v) j = mapFind m j := by
  induction m with
  | nil =>
    have h' : ¬ k = j := fun hh => h hh.symm
    simp [mapSet, mapFind, h']
  | cons e rest ih =>
    obtain ⟨k', v'⟩ := e
    by_cases hk : k' = k
    · subst hk
      have h' : ¬ k' = j := fun hh => h hh.symm
      simp [mapSet, mapFind, h']
    · by_cases hj : k' = j
      · subst hj
        simp [mapSet, mapFind, h]
      · simp [mapSet, mapFind, hk, hj, ih]

theorem mapFind_filter {V : Type} (m : List (Nat × V)) (keep : Nat → Bool) (k : Nat)
    (h : keep k = true) : mapFind (m.filter (fun e => keep e.1)) k = mapFind m k := by
  induction m with
  | nil => rfl
  | cons e rest ih =>
    obtain ⟨k', v'⟩ := e
    by_cases hk : k' = k
    · subst hk
      simp [List.filter, h, mapFind]
    · by_cases hp : keep k' = true
      · simp [List.filter, hp, mapFind, hk, ih]
      · simp [List.filter, hp, mapFind, hk, ih]

theorem mapKeys_filter {V : Type} (m : List (Nat × V)) (keep : Nat → Bool) :
    mapKeys (m.filter (fun e => keep e.1)) = (mapKeys m).filter keep := by
  induction m with
  | nil => rfl
  | cons e rest ih =>
    simp only [mapKeys] at ih
    by_cases hp : keep e.1 = true
    · simp [mapKeys, List.filter, hp, ih]
    · simp [mapKeys, List.filter, hp, ih]

/-! ## The flush sweep -/

theorem sweep_step (m : List (Nat × DynInst)) (i : Nat) :
    (if mapCount m i > 0 then mapErase m i else m) = m.filter (fun e => !(e.1 == i)) := by
  by_cases h : mapCount m i > 0
  · simp [h, mapErase]
  · simp only [h, if_false]
    have hk : i ∉ mapKeys m := fun hh => h ((mapCount_pos_iff m i).mpr hh)
    symm
    rw [List.filter_eq_self]
    intro e he
    have : e.1 ≠ i := by
      intro hei
      exact hk (List.mem_map.mpr ⟨e, he, hei⟩)
    simp [this]

theorem sweep_range (n : Nat) : ∀ (m : List (Nat × DynInst)) (start : Nat),
    (List.range' start n).foldl (fun m i => if mapCount m i > 0 then mapErase m i else m) m
      = m.filter (fun e => outsideSweep start (start + n) e.1) := by
  induction n with
  | zero =>
    intro m start
    simp only [List.range', List.foldl, Nat.add_zero]
    symm
    rw [List.filter_eq_self]
    intro e _
    simp only [outsideSweep, Bool.not_eq_true', Bool.and_eq_false_iff, decide_eq_false_iff_not]
    omega
  | succ n ih =>
    intro m start
    simp only [List.range', List.foldl]
    rw [sweep_step, ih, List.filter_filter]
    apply List.filter_congr
    intro e _
    simp only [outsideSweep]
    by_cases h1 : e.1 = start
    · simp [h1]
    · have h2 : (e.1 == start) = false := by simp [h1]
      have h3 : (decide (start + 1 ≤ e.1)) = decide (start ≤ e.1) := by
        apply decide_eq_decide.mpr
        omega
      have h4 : (decide (e.1 < start + 1 + n)) = decide (e.1 < start + (n + 1)) := by
        apply decide_eq_decide.mpr
        omega
      simp [h2, h3, h4]

theorem flushSweep_eq_filter (m : List (Nat × DynInst)) (last seq_no : Nat) :
    flushSweep m last seq_no = m.filter (fun e => outsideSweep last seq_no e.1) := by
  unfold flushSweep
  rw [sweep_range]
  apply List.filter_congr
  intro e _
  simp only [outsideSweep]
  by_cases h : last ≤ e.1
  · have : (decide (e.1 < last + (seq_no - last))) = decide (e.1 < seq_no) := by
      apply decide_eq_decide.mpr
      omega
    simp [this]
  · simp [h]

/-! ## The steps of `addInstRetire` -/

theorem retireFold_inflight_keys (t : InstTracker) (seq_no : Nat) (d : DynInst)
    (addr value latency : Nat) (h : seq_no ∈ mapKeys t.inflight_insts_) :
    mapKeys (retireFold t seq_no d addr value latency).inflight_insts_
      = mapKeys t.inflight_insts_ := by
  simp only [retireFold]
  exact mapKeys_mapSet_of_mem _ _ _ h

theorem retireFold_last (t : InstTracker) (seq_no : Nat) (d : DynInst)
    (addr value latency : Nat) :
    (retireFold t seq_no d addr value latency).last_retired_seq_no_
      = t.last_retired_seq_no_ := by
  simp only [retireFold]

theorem retireFold_total (t : InstTracker) (seq_no : Nat) (d : DynInst)
    (addr value latency : Nat) :
    (retireFold t seq_no d addr value latency).total_count_ = t.total_count_ := by
  simp only [retireFold]

theorem addInstRetire_eq (t : InstTracker) (seq_no addr value latency : Nat) :
    t.addInstRetire seq_no addr value latency =
      { beforeSweep t seq_no addr value latency with
        inflight_insts_ := flushSweep (beforeSweep t seq_no addr value latency).inflight_insts_
          (beforeSweep t seq_no addr value latency).last_retired_seq_no_ seq_no,
        last_retired_seq_no_ := seq_no } := rfl

theorem beforeSweep_of_not_mem (t : InstTracker) (seq_no addr value latency : Nat)
    (h : seq_no ∉ mapKeys t.inflight_insts_) :
    beforeSweep t seq_no addr value latency = { t with total_count_ := t.total_count_ + 1 } := by
  simp only [beforeSweep]
  rw [if_pos ((mapCount_eq_zero_iff _ _).mpr h)]

theorem beforeSweep_of_find (t : InstTracker) (seq_no addr value latency : Nat) (d : DynInst)
    (h : mapFind t.inflight_insts_ seq_no = some d) :
    beforeSweep t seq_no addr value latency
      = retireFold { t with total_count_ := t.total_count_ + 1 } seq_no d addr value latency := by
  have hmem := mem_mapKeys_of_mapFind _ _ _ h
  have hc : ¬ mapCount t.inflight_insts_ seq_no = 0 := fun h0 =>
    (mapCount_eq_zero_iff _ _).mp h0 hmem
  simp only [beforeSweep]
  rw [if_neg hc, h]

theorem beforeSweep_inflight_keys (t : InstTracker) (seq_no addr value latency : Nat) :
    mapKeys (beforeSweep t seq_no addr value latency).inflight_insts_
      = mapKeys t.inflight_insts_ := by
  by_cases h : seq_no ∈ mapKeys t.inflight_insts_
  · obtain ⟨d, hd⟩ := mapFind_some_of_mem _ _ h
    rw [beforeSweep_of_find t seq_no addr value latency d hd]
    exact retireFold_inflight_keys _ _ _ _ _ _ h
  · rw [beforeSweep_of_not_mem t seq_no addr value latency h]

theorem beforeSweep_last (t : InstTracker) (seq_no addr value latency : Nat) :
    (beforeSweep t seq_no addr value latency).last_retired_seq_no_
      = t.last_retired_seq_no_ := by
  by_cases h : seq_no ∈ mapKeys t.inflight_insts_
  · obtain ⟨d, hd⟩ := mapFind_some_of_mem _ _ h
    rw [beforeSweep_of_find t seq_no addr value latency d hd, retireFold_last]
  · rw [beforeSweep_of_not_mem t seq_no addr value latency h]

theorem beforeSweep_total (t : InstTracker) (seq_no addr value latency : Nat) :
    (beforeSweep t seq_no addr value latency).total_count_ = t.total_count_ + 1 := by
  by_cases h : seq_no ∈ mapKeys t.inflight_insts_
  · obtain ⟨d, hd⟩ := mapFind_some_of_mem _ _ h
    rw [beforeSweep_of_find t seq_no addr value latency d hd, retireFold_total]
  · rw [beforeSweep_of_not_mem t seq_no addr value latency h]

theorem addInstRetire_inflight (t : InstTracker) (seq_no addr value latency : Nat) :
    (t.addInstRetire seq_no addr value latency).inflight_insts_
      = (beforeSweep t seq_no addr value latency).inflight_insts_.filter
          (fun e => outsideSweep t.last_retired_seq_no_ seq_no e.1) := by
  rw [addInstRetire_eq]
  simp only
  rw [flushSweep_eq_filter, beforeSweep_last]


theorem addInstRetire_keys (t : InstTracker) (seq_no addr value latency : Nat) :
    mapKeys (t.addInstRetire seq_no addr value latency).inflight_insts_
      = (mapKeys t.inflight_insts_).filter (outsideSweep t.last_retired_seq_no_ seq_no) := by
  rw [addInstRetire_inflight, mapKeys_filter, beforeSweep_inflight_keys]

theorem addInstRetire_last (t : InstTracker) (seq_no addr value latency : Nat) :
    (t.addInstRetire seq_no addr value latency).last_retired_seq_no_ = seq_no := rfl

theorem addInstRetire_total (t : InstTracker) (seq_no addr value latency : Nat) :
    (t.addInstRetire seq_no addr value latency).total_count_ = t.total_count_ + 1 := by
  rw [addInstRetire_eq]
  exact beforeSweep_total t seq_no addr value latency

theorem addInstRetire_tracked (t : InstTracker) (seq_no addr value latency : Nat) :
    (t.addInstRetire seq_no addr value latency).tracked_insts_
      = (beforeSweep t seq_no addr value latency).tracked_insts_ := rfl

theorem outsideSweep_iff (last seq_no s : Nat) :
    outsideSweep last seq_no s = true ↔ ¬ (last ≤ s ∧ s < seq_no) := by
  simp only [outsideSweep, Bool.not_eq_true', Bool.and_eq_false_iff, decide_eq_false_iff_not]
  constructor
  · rintro (h | h) ⟨h1, h2⟩
    · exact h h1
    · exact h h2
  · intro h
    by_cases h1 : last ≤ s
    · exact Or.inr (fun h2 => h ⟨h1, h2⟩)
    · exact Or.inl h1

/-! ## Distributions -/

theorem sub64_eq_strideOf (next prev : Nat) : sub64 next prev = strideOf prev next := by
  unfold sub64 strideOf
  omega

theorem distCount_addValueToMap (dist : List (Nat × Nat)) (k d : Nat) :
    distCount (addValueToMap dist k) d = distCount dist d + (if d = k then 1 else 0) := by
  induction dist with
  | nil =>
    by_cases h : d = k
    · subst h
      simp [addValueToMap, distCount, mapFind]
    · have h' : ¬ k = d := fun hh => h hh.symm
      simp [addValueToMap, distCount, mapFind, h, h']
  | cons e rest ih =>
    obtain ⟨k', c⟩ := e
    simp only [distCount] at ih
    by_cases hk : k' = k
    · subst hk
      by_cases hd : d = k'
      · subst hd
        simp [addValueToMap, distCount, mapFind]
      · have hd' : ¬ k' = d := fun hh => hd hh.symm
        simp [addValueToMap, distCount, mapFind, hd, hd']
    · by_cases hd : k' = d
      · subst hd
        simp [addValueToMap, distCount, mapFind, hk]
      · simp only [addValueToMap, hk, if_false, distCount, mapFind, hd]
        exact ih

theorem distTotal_addValueToMap (dist : List (Nat × Nat)) (k : Nat) :
    distTotal (addValueToMap dist k) = distTotal dist + 1 := by
  induction dist with
  | nil => simp [addValueToMap, distTotal]
  | cons e rest ih =>
    obtain ⟨k', c⟩ := e
    simp only [distTotal] at ih
    by_cases hk : k' = k
    · simp [addValueToMap, distTotal, hk]
      omega
    · simp [addValueToMap, distTotal, hk, ih]
      omega

theorem mem_addValueToMap (dist : List (Nat × Nat)) (k : Nat) (e : Nat × Nat)
    (h : e ∈ addValueToMap dist k) : (e.1 = k ∧ 1 ≤ e.2) ∨ e ∈ dist := by
  induction dist with
  | nil =>
    simp only [addValueToMap, List.mem_singleton] at h
    subst h
    exact Or.inl ⟨rfl, Nat.le_refl 1⟩
  | cons x rest ih =>
    obtain ⟨k', c⟩ := x
    by_cases hk : k' = k
    · simp only [addValueToMap, hk, if_true, List.mem_cons] at h
      rcases h with h | h
      · subst h
        exact Or.inl ⟨rfl, Nat.le_add_left 1 c⟩
      · exact Or.inr (List.mem_cons_of_mem _ h)
    · simp only [addValueToMap, hk, if_false, List.mem_cons] at h
      rcases h with h | h
      · subst h
        exact Or.inr (List.mem_cons_self _ _)
      · rcases ih h with h' | h'
        · exact Or.inl h'
        · exact Or.inr (List.mem_cons_of_mem _ h')

theorem mapKeys_addValueToMap (dist : List (Nat × Nat)) (k : Nat) :
    mapKeys (addValueToMap dist k)
      = if k ∈ mapKeys dist then mapKeys dist else mapKeys dist ++ [k] := by
  induction dist with
  | nil => simp [addValueToMap, mapKeys]
  | cons x rest ih =>
    obtain ⟨k', c⟩ := x
    simp only [mapKeys] at ih
    by_cases hk : k' = k
    · simp [addValueToMap, mapKeys, hk]
    · have hk' : ¬ k = k' := fun hh => hk hh.symm
      simp only [addValueToMap, hk, if_false, mapKeys, List.map_cons, List.mem_cons, hk',
        false_or, ih]
      split <;> simp

theorem nodup_addValueToMap (dist : List (Nat × Nat)) (k : Nat)
    (h : (mapKeys dist).Nodup) : (mapKeys (addValueToMap dist k)).Nodup := by
  rw [mapKeys_addValueToMap]
  split
  · exact h
  · rename_i hk
    rw [List.nodup_append]
    refine ⟨h, List.nodup_singleton k, ?_⟩
    intro a ha hb
    rw [List.mem_singleton] at hb
    subst hb
    exact hk ha

theorem pos_addValueToMap (dist : List (Nat × Nat)) (k : Nat)
    (h : ∀ e ∈ dist, 1 ≤ e.2) : ∀ e ∈ addValueToMap dist k, 1 ≤ e.2 := by
  intro e he
  rcases mem_addValueToMap dist k e he with h' | h'
  · exact h'.2
  · exact h e h'

/-! ## `ImemInst::addDynInst` -/

theorem addDynInst_count (m : ImemInst) (d : DynInst) :
    (m.addDynInst d).count_ = m.count_ + 1 := by
  simp only [ImemInst.addDynInst]
  split
  · split <;> rfl
  · rfl

theorem addDynInst_latency (m : ImemInst) (d : DynInst) :
    (m.addDynInst d).total_latency_ = m.total_latency_ + d.latency_ := by
  simp only [ImemInst.addDynInst]
  split
  · split <;> rfl
  · rfl

theorem addDynInst_candidate (m : ImemInst) (d : DynInst) :
    (m.addDynInst d).is_candidate_ = m.is_candidate_ := by
  simp only [ImemInst.addDynInst]
  split
  · split <;> rfl
  · rfl

theorem addDynInst_snapshot (m : ImemInst) (d : DynInst) :
    (m.addDynInst d).inst_class_ = m.inst_class_ ∧ (m.addDynInst d).dst_reg_ = m.dst_reg_
      ∧ (m.addDynInst d).src_regs_ = m.src_regs_ ∧ (m.addDynInst d).pc_str_ = m.pc_str_ := by
  simp only [ImemInst.addDynInst]
  split
  · split <;> exact ⟨rfl, rfl, rfl, rfl⟩
  · exact ⟨rfl, rfl, rfl, rfl⟩

theorem addDynInst_noncandidate (m : ImemInst) (d : DynInst) (h : m.is_candidate_ = false) :
    (m.addDynInst d).value_map_ = m.value_map_ ∧ (m.addDynInst d).stride_map_ = m.stride_map_
      ∧ (m.addDynInst d).last_value_ = m.last_value_ := by
  simp [ImemInst.addDynInst, h]

theorem addDynInst_value_map (m : ImemInst) (d : DynInst) (h : m.is_candidate_ = true) :
    (m.addDynInst d).value_map_ = addValueToMap m.value_map_ d.value_ := by
  simp only [ImemInst.addDynInst, h, if_true]
  split <;> rfl

theorem addDynInst_last_value (m : ImemInst) (d : DynInst) (h : m.is_candidate_ = true) :
    (m.addDynInst d).last_value_ = d.value_ := by
  simp only [ImemInst.addDynInst, h, if_true]

theorem addDynInst_stride_map (m : ImemInst) (d : DynInst) (h : m.is_candidate_ = true) :
    (m.addDynInst d).stride_map_
      = if m.last_value_ ≠ deadbeef then
          addValueToMap m.stride_map_ (sub64 d.value_ m.last_value_)
        else m.stride_map_ := by
  simp only [ImemInst.addDynInst, h, if_true]
  split <;> rfl


/-! ## Retirement: flush sweep, counter, unknown sequence numbers -/

/-- C1: after `addInstRetire N`, with `L` the last-retired sequence number
before the call, the in-flight keys are the previous keys without those in
`[L, N)`: a key is in flight afterwards exactly when it was in flight before
and is not in `[L, N)`; and the last-retired sequence number is `N`. -/
theorem addInstRetire_flush_sweep (t : InstTracker) (N addr value latency : Nat) :
    mapKeys (t.addInstRetire N addr value latency).inflight_insts_
        = (mapKeys t.inflight_insts_).filter
            (fun s => !(decide (t.last_retired_seq_no_ ≤ s) && decide (s < N)))
      ∧ (∀ s, s ∈ mapKeys (t.addInstRetire N addr value latency).inflight_insts_
          ↔ s ∈ mapKeys t.inflight_insts_ ∧ ¬ (t.last_retired_seq_no_ ≤ s ∧ s < N))
      ∧ (t.addInstRetire N addr value latency).last_retired_seq_no_ = N := by
  refine ⟨addInstRetire_keys t N addr value latency, ?_, rfl⟩
  intro s
  rw [addInstRetire_keys, List.mem_filter, outsideSweep_iff]

/-- The example of the flush sweep: issue 1, 2, 3, retire 1, retire 3; then 2
is no longer in flight, and neither is 1. -/
theorem flush_sweep_example :
    mapKeys (InstTracker.empty.run
      [.issue 1 7 0 true 1, .issue 2 8 0 true 1, .issue 3 9 0 true 1,
       .retire 1 0 10 5, .retire 3 0 5 5]).inflight_insts_ = [3] := by
  decide

/-- C2, as stated, fails: after issuing 1 and retiring 1, sequence number 1 is
still a key of the in-flight table, and a second retirement of 1 finds the
record and folds it again (the profile counts 2). -/
theorem retire_keeps_record_counterexample :
    1 ∈ mapKeys (InstTracker.empty.addInstIssue 1 4096 0 true 1).inflight_insts_
      ∧ 1 ∈ mapKeys ((InstTracker.empty.addInstIssue 1 4096 0 true 1).addInstRetire
          1 0 100 5).inflight_insts_
      ∧ (mapFind (((InstTracker.empty.addInstIssue 1 4096 0 true 1).addInstRetire
          1 0 100 5).addInstRetire 1 0 100 5).tracked_insts_ 4096).map ImemInst.count_
          = some 2 := by
  decide

/-- C2, amended: when `N` is in flight, after `addInstRetire N` it is still a
key of the in-flight table, holding its record with the final information
filled in; the flush sweep of a following `addInstRetire M` with `N < M`
removes it. -/
theorem addInstRetire_record_removed_by_next (t : InstTracker) (N addr value latency : Nat)
    (h : N ∈ mapKeys t.inflight_insts_) :
    N ∈ mapKeys (t.addInstRetire N addr value latency).inflight_insts_
      ∧ (∃ d, mapFind t.inflight_insts_ N = some d
          ∧ mapFind (t.addInstRetire N addr value latency).inflight_insts_ N
              = some (d.setFinalInfo addr value latency))
      ∧ ∀ M addr' value' latency', N < M →
          N ∉ mapKeys ((t.addInstRetire N addr value latency).addInstRetire
            M addr' value' latency').inflight_insts_ := by
  have hout : outsideSweep t.last_retired_seq_no_ N N = true := by
    rw [outsideSweep_iff]
    omega
  refine ⟨?_, ?_, ?_⟩
  · rw [addInstRetire_keys, List.mem_filter]
    exact ⟨h, hout⟩
  · obtain ⟨d, hd⟩ := mapFind_some_of_mem _ _ h
    refine ⟨d, hd, ?_⟩
    rw [addInstRetire_inflight,
      mapFind_filter _ (outsideSweep t.last_retired_seq_no_ N) N hout,
      beforeSweep_of_find t N addr value latency d hd]
    simp only [retireFold]
    exact mapFind_mapSet_same _ _ _
  · intro M addr' value' latency' hlt hmem
    rw [addInstRetire_keys, List.mem_filter, outsideSweep_iff, addInstRetire_last] at hmem
    exact hmem.2 ⟨Nat.le_refl N, hlt⟩

/-- A state with sequence number 1 in flight, where the amended C2 applies. -/
theorem addInstRetire_record_removed_by_next_witness :
    1 ∈ mapKeys (InstTracker.empty.addInstIssue 1 4096 0 true 1).inflight_insts_
      ∧ (1 ∈ mapKeys ((InstTracker.empty.addInstIssue 1 4096 0 true 1).addInstRetire
            1 0 100 5).inflight_insts_
        ∧ (∃ d, mapFind (InstTracker.empty.addInstIssue 1 4096 0 true 1).inflight_insts_ 1
              = some d
            ∧ mapFind ((InstTracker.empty.addInstIssue 1 4096 0 true 1).addInstRetire
                1 0 100 5).inflight_insts_ 1 = some (d.setFinalInfo 0 100 5))
        ∧ ∀ M addr' value' latency', 1 < M →
            1 ∉ mapKeys (((InstTracker.empty.addInstIssue 1 4096 0 true 1).addInstRetire
              1 0 100 5).addInstRetire M addr' value' latency').inflight_insts_) :=
  ⟨by decide,
    addInstRetire_record_removed_by_next (InstTracker.empty.addInstIssue 1 4096 0 true 1)
      1 0 100 5 (by decide)⟩

/-- C3: `addInstRetire` adds exactly 1 to the total retired counter, whether
or not the sequence number is in flight; `addInstIssue` and `addInstExec`
leave the counter alone. -/
theorem total_count_changes (t : InstTracker) :
    (∀ seq_no addr value latency,
        (t.addInstRetire seq_no addr value latency).total_count_ = t.total_count_ + 1)
      ∧ (∀ seq_no pc piece is_candidate cache_hit,
        (t.addInstIssue seq_no pc piece is_candidate cache_hit).total_count_ = t.total_count_)
      ∧ (∀ seq_no inst_class src1 src2 src3 dst,
        (t.addInstExec seq_no inst_class src1 src2 src3 dst).total_count_ = t.total_count_) := by
  refine ⟨fun seq_no addr value latency => addInstRetire_total t seq_no addr value latency,
    ?_, ?_⟩
  · intro seq_no pc piece is_candidate cache_hit
    simp only [InstTracker.addInstIssue]
    split <;> rfl
  · intro seq_no inst_class src1 src2 src3 dst
    simp only [InstTracker.addInstExec]
    split
    · rfl
    · split <;> rfl

/-- C4, as stated, fails: with 1 in flight and last-retired 0, retiring the
unknown sequence number 5 empties the in-flight table and moves the
last-retired sequence number to 5. -/
theorem retire_unknown_counterexample :
    5 ∉ mapKeys (InstTracker.empty.addInstIssue 1 4096 0 true 1).inflight_insts_
      ∧ (InstTracker.empty.addInstIssue 1 4096 0 true 1).inflight_insts_ ≠ []
      ∧ (InstTracker.empty.addInstIssue 1 4096 0 true 1).last_retired_seq_no_ = 0
      ∧ ((InstTracker.empty.addInstIssue 1 4096 0 true 1).addInstRetire
          5 0 0 0).inflight_insts_ = []
      ∧ ((InstTracker.empty.addInstIssue 1 4096 0 true 1).addInstRetire
          5 0 0 0).last_retired_seq_no_ = 5 := by
  decide

/-- C4, amended: when `N` is not in flight, `addInstRetire N` leaves the
completed table unchanged and adds 1 to the total retired counter; the flush
sweep still runs, so the in-flight table keeps exactly its entries with a key
outside `[L, N)` (all of them when no key is in that range) and the
last-retired sequence number becomes `N`. -/
theorem addInstRetire_unknown (t : InstTracker) (N addr value latency : Nat)
    (h : N ∉ mapKeys t.inflight_insts_) :
    (t.addInstRetire N addr value latency).tracked_insts_ = t.tracked_insts_
      ∧ (t.addInstRetire N addr value latency).total_count_ = t.total_count_ + 1
      ∧ (t.addInstRetire N addr value latency).inflight_insts_
          = t.inflight_insts_.filter
              (fun e => !(decide (t.last_retired_seq_no_ ≤ e.1) && decide (e.1 < N)))
      ∧ ((∀ s ∈ mapKeys t.inflight_insts_, ¬ (t.last_retired_seq_no_ ≤ s ∧ s < N)) →
          (t.addInstRetire N addr value latency).inflight_insts_ = t.inflight_insts_)
      ∧ (t.addInstRetire N addr value latency).last_retired_seq_no_ = N := by
  have hin : (t.addInstRetire N addr value latency).inflight_insts_
      = t.inflight_insts_.filter (fun e => outsideSweep t.last_retired_seq_no_ N e.1) := by
    rw [addInstRetire_inflight, beforeSweep_of_not_mem t N addr value latency h]
  refine ⟨?_, addInstRetire_total t N addr value latency, hin, ?_, rfl⟩
  · rw [addInstRetire_tracked, beforeSweep_of_not_mem t N addr value latency h]
  · intro hall
    rw [hin, List.filter_eq_self]
    intro e he
    rw [outsideSweep_iff]
    exact hall e.1 (List.mem_map.mpr ⟨e, he, rfl⟩)

/-- A state where 5 is not in flight, where the amended C4 applies. -/
theorem addInstRetire_unknown_witness :
    5 ∉ mapKeys (InstTracker.empty.addInstIssue 1 4096 0 true 1).inflight_insts_
      ∧ ((InstTracker.empty.addInstIssue 1 4096 0 true 1).addInstRetire 5 0 0 0).tracked_insts_
          = (InstTracker.empty.addInstIssue 1 4096 0 true 1).tracked_insts_ :=
  ⟨by decide,
    (addInstRetire_unknown (InstTracker.empty.addInstIssue 1 4096 0 true 1) 5 0 0 0
      (by decide)).1⟩

/-- C5: `addInstIssue` of a sequence number that is already in flight leaves
the whole tracker state unchanged, whatever the arguments; the record in
flight keeps its fields. -/
theorem addInstIssue_duplicate (t : InstTracker) (seq_no pc piece : Nat)
    (is_candidate : Bool) (cache_hit : Nat) (h : seq_no ∈ mapKeys t.inflight_insts_) :
    t.addInstIssue seq_no pc piece is_candidate cache_hit = t
      ∧ mapFind (t.addInstIssue seq_no pc piece is_candidate cache_hit).inflight_insts_ seq_no
          = mapFind t.inflight_insts_ seq_no := by
  have heq : t.addInstIssue seq_no pc piece is_candidate cache_hit = t := by
    simp only [InstTracker.addInstIssue]
    rw [if_pos ((mapCount_pos_iff _ _).mpr h)]
  exact ⟨heq, by rw [heq]⟩

/-- A second issue of sequence number 1 with other arguments changes nothing. -/
theorem addInstIssue_duplicate_witness :
    1 ∈ mapKeys (InstTracker.empty.addInstIssue 1 4096 0 true 1).inflight_insts_
      ∧ ((InstTracker.empty.addInstIssue 1 4096 0 true 1).addInstIssue 1 8192 3 false 0
            = InstTracker.empty.addInstIssue 1 4096 0 true 1
        ∧ mapFind ((InstTracker.empty.addInstIssue 1 4096 0 true 1).addInstIssue
              1 8192 3 false 0).inflight_insts_ 1
            = mapFind (InstTracker.empty.addInstIssue 1 4096 0 true 1).inflight_insts_ 1) :=
  ⟨by decide,
    addInstIssue_duplicate (InstTracker.empty.addInstIssue 1 4096 0 true 1) 1 8192 3 false 0
      (by decide)⟩


/-! ## Strides of a candidate profile -/

theorem foldl_addDynInst_candidate (ds : List DynInst) : ∀ m : ImemInst,
    (ds.foldl ImemInst.addDynInst m).is_candidate_ = m.is_candidate_ := by
  induction ds with
  | nil => intro m; rfl
  | cons x rest ih =>
    intro m
    simp only [List.foldl]
    rw [ih, addDynInst_candidate]

theorem foldl_addDynInst_count (ds : List DynInst) : ∀ m : ImemInst,
    (ds.foldl ImemInst.addDynInst m).count_ = m.count_ + ds.length := by
  induction ds with
  | nil => intro m; rfl
  | cons x rest ih =>
    intro m
    simp only [List.foldl, List.length_cons]
    rw [ih, addDynInst_count]
    omega

theorem stride_fold (ds : List DynInst) : ∀ m : ImemInst,
    m.is_candidate_ = true → m.last_value_ ≠ deadbeef →
    (∀ v ∈ (ds.map DynInst.value_).dropLast, v ≠ deadbeef) →
    (∀ d, distCount (ds.foldl ImemInst.addDynInst m).stride_map_ d
        = distCount m.stride_map_ d
          + (consecutiveStrides (m.last_value_ :: ds.map DynInst.value_)).count d)
      ∧ distTotal (ds.foldl ImemInst.addDynInst m).stride_map_
          = distTotal m.stride_map_ + ds.length := by
  induction ds with
  | nil =>
    intro m _ _ _
    simp [consecutiveStrides]
  | cons x rest ih =>
    intro m hc hl hv
    have hc1 : (m.addDynInst x).is_candidate_ = true := by rw [addDynInst_candidate]; exact hc
    have hs1 : (m.addDynInst x).stride_map_
        = addValueToMap m.stride_map_ (sub64 x.value_ m.last_value_) := by
      rw [addDynInst_stride_map m x hc, if_pos hl]
    have hl1 : (m.addDynInst x).last_value_ = x.value_ := addDynInst_last_value m x hc
    cases rest with
    | nil =>
      simp only [List.foldl, List.map_cons, List.map_nil, consecutiveStrides, List.length_cons,
        List.length_nil]
      rw [hs1]
      refine ⟨fun d => ?_, distTotal_addValueToMap _ _⟩
      rw [distCount_addValueToMap, sub64_eq_strideOf, List.count_singleton]
      by_cases hd : d = strideOf m.last_value_ x.value_
      · simp [hd]
      · have hd' : ¬ strideOf m.last_value_ x.value_ = d := fun hh => hd hh.symm
        simp [hd, hd']
    | cons y rest' =>
      have hx : x.value_ ≠ deadbeef := by
        apply hv
        simp [List.dropLast]
      have hv' : ∀ v ∈ ((y :: rest').map DynInst.value_).dropLast, v ≠ deadbeef := by
        intro v hmem
        apply hv
        simp only [List.map_cons, List.dropLast_cons₂, List.mem_cons]
        right
        simpa using hmem
      have hl1' : (m.addDynInst x).last_value_ ≠ deadbeef := by rw [hl1]; exact hx
      obtain ⟨ih1, ih2⟩ := ih (m.addDynInst x) hc1 hl1' hv'
      have hfold : (x :: y :: rest').foldl ImemInst.addDynInst m
          = (y :: rest').foldl ImemInst.addDynInst (m.addDynInst x) := rfl
      rw [hfold]
      refine ⟨fun d => ?_, ?_⟩
      · rw [ih1 d, hs1, hl1, distCount_addValueToMap, sub64_eq_strideOf]
        simp only [List.map_cons, consecutiveStrides, List.count_cons, beq_iff_eq]
        by_cases hd : d = strideOf m.last_value_ x.value_
        · simp [hd]
          omega
        · have hd' : ¬ strideOf m.last_value_ x.value_ = d := fun hh => hd hh.symm
          simp [hd, hd']
      · rw [ih2, hs1, distTotal_addValueToMap]
        simp only [List.length_cons]
        omega

theorem consecutiveStrides_length (vs : List Nat) :
    (consecutiveStrides vs).length = vs.length - 1 := by
  induction vs with
  | nil => rfl
  | cons a rest ih =>
    cases rest with
    | nil => rfl
    | cons b rest' =>
      simp only [consecutiveStrides, List.length_cons] at ih ⊢
      omega

/-- C6, as stated, fails: a candidate instruction retired twice, producing
`0xdeadbeef` and then 5, has an empty stride distribution, although the
values have one consecutive difference. -/
theorem stride_sentinel_counterexample :
    (mapFind (InstTracker.empty.run
        [.issue 1 4096 0 true 1, .retire 1 0 0xdeadbeef 5,
         .issue 2 4096 0 true 1, .retire 2 0 5 5]).tracked_insts_ 4096).map
        (fun p => (p.is_candidate_, p.count_, p.value_map_, p.stride_map_))
        = some (true, 2, [(0xdeadbeef, 1), (5, 1)], [])
      ∧ consecutiveStrides [0xdeadbeef, 5] = [18446744069973623062] := by
  decide

/-- C6, amended: for a candidate instruction whose produced values, apart
from the last, differ from the sentinel `0xdeadbeef`, the stride distribution
after the retirements of `first :: later` gives every key `d` the number of
consecutive pairs of values whose difference modulo `2 ^ 64` is `d`; the
stride counts sum to `n - 1`, `n` being the number of retirements, which is
the retire count of the profile. -/
theorem stride_distribution (first : DynInst) (later : List DynInst)
    (hcand : first.is_candidate_ = true)
    (hvals : ∀ v ∈ ((first :: later).map DynInst.value_).dropLast, v ≠ deadbeef) :
    (∀ d, distCount (profileOf first later).stride_map_ d
        = (consecutiveStrides ((first :: later).map DynInst.value_)).count d)
      ∧ distTotal (profileOf first later).stride_map_ = (first :: later).length - 1
      ∧ (profileOf first later).count_ = (first :: later).length := by
  have hc0 : (ImemInst.new first).is_candidate_ = true := hcand
  have hc1 : ((ImemInst.new first).addDynInst first).is_candidate_ = true := by
    rw [addDynInst_candidate]; exact hc0
  have hs1 : ((ImemInst.new first).addDynInst first).stride_map_ = [] := by
    rw [addDynInst_stride_map _ _ hc0]
    simp [ImemInst.new]
  have hl1 : ((ImemInst.new first).addDynInst first).last_value_ = first.value_ :=
    addDynInst_last_value _ _ hc0
  have hfold : profileOf first later
      = later.foldl ImemInst.addDynInst ((ImemInst.new first).addDynInst first) := rfl
  have hcount : (profileOf first later).count_ = (first :: later).length := by
    rw [hfold, foldl_addDynInst_count, addDynInst_count]
    simp only [ImemInst.new, List.length_cons]
    omega
  cases later with
  | nil =>
    refine ⟨fun d => ?_, ?_, hcount⟩
    · rw [hfold]
      simp only [List.foldl, hs1, List.map_cons, List.map_nil, consecutiveStrides]
      simp [distCount, mapFind]
    · rw [hfold]
      simp only [List.foldl, hs1]
      rfl
  | cons y rest =>
    have hx : first.value_ ≠ deadbeef := by
      apply hvals
      simp [List.dropLast]
    have hv' : ∀ v ∈ ((y :: rest).map DynInst.value_).dropLast, v ≠ deadbeef := by
      intro v hmem
      apply hvals
      simp only [List.map_cons, List.dropLast_cons₂, List.mem_cons]
      right
      simpa using hmem
    have hl1' : ((ImemInst.new first).addDynInst first).last_value_ ≠ deadbeef := by
      rw [hl1]; exact hx
    obtain ⟨h1, h2⟩ := stride_fold (y :: rest) _ hc1 hl1' hv'
    refine ⟨fun d => ?_, ?_, hcount⟩
    · rw [hfold, h1 d, hs1, hl1]
      simp [distCount, mapFind]
    · rw [hfold, h2, hs1]
      simp [distTotal]

/-- The values 10, 10, 13, 13, 5 of a candidate instruction give the strides
0 (twice), 3 and -8, four in all. -/
theorem stride_distribution_witness :
    (DynInst.new 4096 0 true 1).is_candidate_ = true
      ∧ (∀ v ∈ (((DynInst.new 4096 0 true 1).setFinalInfo 0 10 1
            :: [(DynInst.new 4096 0 true 1).setFinalInfo 0 10 1,
                (DynInst.new 4096 0 true 1).setFinalInfo 0 13 1,
                (DynInst.new 4096 0 true 1).setFinalInfo 0 13 1,
                (DynInst.new 4096 0 true 1).setFinalInfo 0 5 1]).map DynInst.value_).dropLast,
          v ≠ deadbeef)
      ∧ distTotal (profileOf ((DynInst.new 4096 0 true 1).setFinalInfo 0 10 1)
            [(DynInst.new 4096 0 true 1).setFinalInfo 0 10 1,
             (DynInst.new 4096 0 true 1).setFinalInfo 0 13 1,
             (DynInst.new 4096 0 true 1).setFinalInfo 0 13 1,
             (DynInst.new 4096 0 true 1).setFinalInfo 0 5 1]).stride_map_ = 5 - 1
      ∧ (profileOf ((DynInst.new 4096 0 true 1).setFinalInfo 0 10 1)
            [(DynInst.new 4096 0 true 1).setFinalInfo 0 10 1,
             (DynInst.new 4096 0 true 1).setFinalInfo 0 13 1,
             (DynInst.new 4096 0 true 1).setFinalInfo 0 13 1,
             (DynInst.new 4096 0 true 1).setFinalInfo 0 5 1]).stride_map_
          = [(0, 2), (3, 1), (2 ^ 64 - 8, 1)] :=
  ⟨rfl, by decide,
    (stride_distribution ((DynInst.new 4096 0 true 1).setFinalInfo 0 10 1)
      [(DynInst.new 4096 0 true 1).setFinalInfo 0 10 1,
       (DynInst.new 4096 0 true 1).setFinalInfo 0 13 1,
       (DynInst.new 4096 0 true 1).setFinalInfo 0 13 1,
       (DynInst.new 4096 0 true 1).setFinalInfo 0 5 1] rfl (by decide)).2.1,
    by decide⟩


/-! ## The fold of a retired record into the completed table -/

theorem mapSet_mapSet {V : Type} (m : List (Nat × V)) (k : Nat) (v w : V) :
    mapSet (mapSet m k v) k w = mapSet m k w := by
  induction m with
  | nil => simp [mapSet]
  | cons e rest ih =>
    obtain ⟨k', v'⟩ := e
    by_cases hk : k' = k
    · simp [mapSet, hk]
    · simp [mapSet, hk, ih]

theorem mem_mapSet {V : Type} (m : List (Nat × V)) (k : Nat) (v : V) (e : Nat × V)
    (h : e ∈ mapSet m k v) : e ∈ m ∨ e.2 = v := by
  induction m with
  | nil =>
    simp only [mapSet, List.mem_singleton] at h
    subst h
    exact Or.inr rfl
  | cons x rest ih =>
    obtain ⟨k', v'⟩ := x
    by_cases hk : k' = k
    · simp only [mapSet, hk, if_true, List.mem_cons] at h
      rcases h with h | h
      · subst h
        exact Or.inr rfl
      · exact Or.inl (List.mem_cons_of_mem _ h)
    · simp only [mapSet, hk, if_false, List.mem_cons] at h
      rcases h with h | h
      · subst h
        exact Or.inl (List.mem_cons_self _ _)
      · rcases ih h with h' | h'
        · exact Or.inl (List.mem_cons_of_mem _ h')
        · exact Or.inr h'

theorem mem_of_mapFind {V : Type} (m : List (Nat × V)) (k : Nat) (v : V)
    (h : mapFind m k = some v) : (k, v) ∈ m := by
  induction m with
  | nil => simp [mapFind] at h
  | cons x rest ih =>
    obtain ⟨k', v'⟩ := x
    by_cases hk : k' = k
    · simp only [mapFind, hk, if_true, Option.some.injEq] at h
      subst h
      subst hk
      exact List.mem_cons_self _ _
    · simp only [mapFind, hk, if_false] at h
      exact List.mem_cons_of_mem _ (ih h)

theorem retireFold_tracked (t : InstTracker) (seq_no : Nat) (d : DynInst)
    (addr value latency : Nat) :
    (retireFold t seq_no d addr value latency).tracked_insts_
      = mapSet t.tracked_insts_ d.pc_
          (((mapFind t.tracked_insts_ d.pc_).getD
              (ImemInst.new (d.setFinalInfo addr value latency))).addDynInst
            (d.setFinalInfo addr value latency)) := by
  simp only [retireFold, DynInst.getPcStr, DynInst.setFinalInfo]
  by_cases hc : mapCount t.tracked_insts_ d.pc_ = 0
  · have hnone : mapFind t.tracked_insts_ d.pc_ = none :=
      (mapFind_eq_none_iff _ _).mpr ((mapCount_eq_zero_iff _ _).mp hc)
    rw [if_pos hc, mapFind_mapSet_same, hnone]
    simp only [Option.getD_none]
    exact mapSet_mapSet _ _ _ _
  · have hmem : d.pc_ ∈ mapKeys t.tracked_insts_ := by
      by_contra hh
      exact hc ((mapCount_eq_zero_iff _ _).mpr hh)
    obtain ⟨p, hp⟩ := mapFind_some_of_mem _ _ hmem
    rw [if_neg hc, hp]
    simp only [Option.getD_some]

theorem addInstRetire_tracked_of_find (t : InstTracker) (seq_no addr value latency : Nat)
    (d : DynInst) (h : mapFind t.inflight_insts_ seq_no = some d) :
    (t.addInstRetire seq_no addr value latency).tracked_insts_
      = mapSet t.tracked_insts_ d.pc_
          (((mapFind t.tracked_insts_ d.pc_).getD
              (ImemInst.new (d.setFinalInfo addr value latency))).addDynInst
            (d.setFinalInfo addr value latency)) := by
  rw [addInstRetire_tracked, beforeSweep_of_find t seq_no addr value latency d h,
    retireFold_tracked]

theorem addInstIssue_tracked (t : InstTracker) (seq_no pc piece : Nat)
    (is_candidate : Bool) (cache_hit : Nat) :
    (t.addInstIssue seq_no pc piece is_candidate cache_hit).tracked_insts_
      = t.tracked_insts_ := by
  simp only [InstTracker.addInstIssue]
  split <;> rfl

theorem addInstExec_tracked (t : InstTracker) (seq_no inst_class src1 src2 src3 dst : Nat) :
    (t.addInstExec seq_no inst_class src1 src2 src3 dst).tracked_insts_
      = t.tracked_insts_ := by
  simp only [InstTracker.addInstExec]
  split
  · rfl
  · split <;> rfl

/-! ## What holds of every profile -/

theorem profileOk_new (d : DynInst) : ProfileOk (ImemInst.new d) where
  noncandidate := fun _ => ⟨rfl, rfl⟩
  value_total := fun _ => rfl
  stride_total := Nat.zero_le _
  fresh := fun _ => rfl
  value_keys := List.nodup_nil
  stride_keys := List.nodup_nil
  value_pos := fun e he => absurd he (List.not_mem_nil e)
  stride_pos := fun e he => absurd he (List.not_mem_nil e)

theorem profileOk_addDynInst (m : ImemInst) (d : DynInst) (h : ProfileOk m) :
    ProfileOk (m.addDynInst d) := by
  have hcount := addDynInst_count m d
  cases hc : m.is_candidate_ with
  | false =>
    obtain ⟨hv, hs, hl⟩ := addDynInst_noncandidate m d hc
    have hcand : (m.addDynInst d).is_candidate_ = false := by
      rw [addDynInst_candidate]; exact hc
    exact {
      noncandidate := fun _ => by rw [hv, hs]; exact h.noncandidate hc
      value_total := fun hh => by rw [hcand] at hh; exact Bool.noConfusion hh
      stride_total := by
        rw [hs, hcount]
        exact Nat.le_trans h.stride_total (by omega)
      fresh := fun h0 => by rw [hcount] at h0; omega
      value_keys := by rw [hv]; exact h.value_keys
      stride_keys := by rw [hs]; exact h.stride_keys
      value_pos := by rw [hv]; exact h.value_pos
      stride_pos := by rw [hs]; exact h.stride_pos }
  | true =>
    have hv := addDynInst_value_map m d hc
    have hs := addDynInst_stride_map m d hc
    have hcand : (m.addDynInst d).is_candidate_ = true := by
      rw [addDynInst_candidate]; exact hc
    exact {
      noncandidate := fun hh => by rw [hcand] at hh; exact Bool.noConfusion hh
      value_total := fun _ => by
        rw [hv, distTotal_addValueToMap, hcount, h.value_total hc]
      stride_total := by
        rw [hs, hcount]
        by_cases hl : m.last_value_ ≠ deadbeef
        · rw [if_pos hl, distTotal_addValueToMap]
          have hpos : m.count_ ≠ 0 := fun h0 => hl (h.fresh h0)
          have := h.stride_total
          omega
        · rw [if_neg hl]
          exact Nat.le_trans h.stride_total (by omega)
      fresh := fun h0 => by rw [hcount] at h0; omega
      value_keys := by rw [hv]; exact nodup_addValueToMap _ _ h.value_keys
      stride_keys := by
        rw [hs]
        split
        · exact nodup_addValueToMap _ _ h.stride_keys
        · exact h.stride_keys
      value_pos := by rw [hv]; exact pos_addValueToMap _ _ h.value_pos
      stride_pos := by
        rw [hs]
        split
        · exact pos_addValueToMap _ _ h.stride_pos
        · exact h.stride_pos }

theorem trackedOk_step (t : InstTracker) (ev : Event) (h : TrackedOk t.tracked_insts_) :
    TrackedOk (t.step ev).tracked_insts_ := by
  cases ev with
  | issue seq_no pc piece is_candidate cache_hit =>
    simp only [InstTracker.step]
    rw [addInstIssue_tracked]
    exact h
  | exec seq_no inst_class src1 src2 src3 dst =>
    simp only [InstTracker.step]
    rw [addInstExec_tracked]
    exact h
  | retire seq_no addr value latency =>
    simp only [InstTracker.step]
    by_cases hmem : seq_no ∈ mapKeys t.inflight_insts_
    · obtain ⟨d, hd⟩ := mapFind_some_of_mem _ _ hmem
      rw [addInstRetire_tracked_of_find t seq_no addr value latency d hd]
      intro e he
      rcases mem_mapSet _ _ _ _ he with he' | he'
      · exact h e he'
      · rw [he']
        have hbase : ProfileOk ((mapFind t.tracked_insts_ d.pc_).getD
            (ImemInst.new (d.setFinalInfo addr value latency))) := by
          cases hf : mapFind t.tracked_insts_ d.pc_ with
          | none => exact profileOk_new _
          | some p => exact (h _ (mem_of_mapFind _ _ _ hf)).1
        refine ⟨profileOk_addDynInst _ _ hbase, ?_⟩
        rw [addDynInst_count]
        omega
    · rw [addInstRetire_tracked, beforeSweep_of_not_mem t seq_no addr value latency hmem]
      exact h

theorem trackedOk_run (evs : List Event) : ∀ t : InstTracker,
    TrackedOk t.tracked_insts_ → TrackedOk (t.run evs).tracked_insts_ := by
  induction evs with
  | nil => intro t h; exact h
  | cons ev rest ih =>
    intro t h
    exact ih (t.step ev) (trackedOk_step t ev h)

theorem trackedOk_of_reachable (t : InstTracker) (h : Reachable t) :
    TrackedOk t.tracked_insts_ := by
  obtain ⟨evs, rfl⟩ := h
  apply trackedOk_run
  intro e he
  exact absurd he (List.not_mem_nil e)

/-- C7: in every reachable state, a profile whose candidacy flag is false has
an empty value distribution and an empty stride distribution. -/
theorem noncandidate_distributions_empty (t : InstTracker) (h : Reachable t)
    (e : Nat × ImemInst) (he : e ∈ t.tracked_insts_) (hc : e.2.is_candidate_ = false) :
    e.2.value_map_ = [] ∧ e.2.stride_map_ = [] :=
  ((trackedOk_of_reachable t h) e he).1.noncandidate hc

/-- A program counter first retired as a non-candidate and then retired from
an instance issued as a candidate: the profile counts both retirements and
has no distribution entries. -/
theorem noncandidate_distributions_empty_witness :
    Reachable (InstTracker.empty.run
        [.issue 1 4096 0 false 1, .retire 1 0 10 5, .issue 2 4096 0 true 1, .retire 2 0 13 7])
      ∧ (InstTracker.empty.run
          [.issue 1 4096 0 false 1, .retire 1 0 10 5, .issue 2 4096 0 true 1,
           .retire 2 0 13 7]).tracked_insts_
          = [(4096, { ImemInst.new (DynInst.new 4096 0 false 1) with
                      count_ := 2, total_latency_ := 12 })]
      ∧ ((ImemInst.new (DynInst.new 4096 0 false 1)).value_map_ = []
          ∧ (ImemInst.new (DynInst.new 4096 0 false 1)).stride_map_ = []) :=
  ⟨⟨_, rfl⟩, by decide,
    noncandidate_distributions_empty
      (InstTracker.empty.run
        [.issue 1 4096 0 false 1, .retire 1 0 10 5, .issue 2 4096 0 true 1, .retire 2 0 13 7])
      ⟨_, rfl⟩
      (4096, { ImemInst.new (DynInst.new 4096 0 false 1) with
               count_ := 2, total_latency_ := 12 })
      (by decide) rfl⟩


/-- C8: when `N` is in flight with record `d`, after `addInstRetire N` the
profile of the program counter of `d` exists; its count is the previous count
(0 when there was no profile) plus 1, its latency sum the previous sum (or 0)
plus the latency, and, when the profile is a candidate, its value
distribution counts `value` once more than before; the profile of every other
program counter is unchanged. -/
theorem addInstRetire_fold (t : InstTracker) (N addr value latency : Nat) (d : DynInst)
    (h : mapFind t.inflight_insts_ N = some d) :
    ∃ prof, mapFind (t.addInstRetire N addr value latency).tracked_insts_ d.getPcStr
        = some prof
      ∧ prof.count_
          = ((mapFind t.tracked_insts_ d.getPcStr).map ImemInst.count_).getD 0 + 1
      ∧ prof.total_latency_
          = ((mapFind t.tracked_insts_ d.getPcStr).map ImemInst.total_latency_).getD 0
            + latency
      ∧ (prof.is_candidate_ = true →
          distCount prof.value_map_ value
            = ((mapFind t.tracked_insts_ d.getPcStr).map
                (fun p => distCount p.value_map_ value)).getD 0 + 1)
      ∧ ∀ q, q ≠ d.getPcStr →
          mapFind (t.addInstRetire N addr value latency).tracked_insts_ q
            = mapFind t.tracked_insts_ q := by
  rw [addInstRetire_tracked_of_find t N addr value latency d h]
  simp only [DynInst.getPcStr]
  refine ⟨_, mapFind_mapSet_same _ _ _, ?_, ?_, ?_, ?_⟩
  · rw [addDynInst_count]
    cases mapFind t.tracked_insts_ d.pc_ <;> rfl
  · rw [addDynInst_latency]
    cases mapFind t.tracked_insts_ d.pc_ <;> rfl
  · intro hc
    rw [addDynInst_candidate] at hc
    rw [addDynInst_value_map _ _ hc, distCount_addValueToMap]
    cases mapFind t.tracked_insts_ d.pc_ <;> simp [DynInst.setFinalInfo, ImemInst.new, distCount,
      mapFind]
  · intro q hq
    exact mapFind_mapSet_other _ _ _ _ hq

/-- The end-to-end example: issue 1 at pc 0x1000 as a candidate, execute it as
an alu instruction with destination 2, retire it with value 100 and latency 5.
The one profile has count 1, latency sum 5, value distribution 100 ↦ 1 and an
empty stride distribution. -/
theorem addInstRetire_fold_witness :
    mapFind (InstTracker.empty.run
        [.issue 1 4096 0 true 1, .exec 1 0 deadbeef deadbeef deadbeef 2]).inflight_insts_ 1
        = some ((DynInst.new 4096 0 true 1).setMetaInfo 0 deadbeef deadbeef deadbeef 2)
      ∧ (∃ prof, mapFind ((InstTracker.empty.run
            [.issue 1 4096 0 true 1, .exec 1 0 deadbeef deadbeef deadbeef 2]).addInstRetire
              1 0 100 5).tracked_insts_ 4096 = some prof
          ∧ prof.count_ = 1 ∧ prof.total_latency_ = 5
          ∧ prof.total_latency_ / prof.count_ = 5
          ∧ prof.value_map_ = [(100, 1)] ∧ prof.stride_map_ = []) :=
  ⟨by decide,
    (addInstRetire_fold (InstTracker.empty.run
        [.issue 1 4096 0 true 1, .exec 1 0 deadbeef deadbeef deadbeef 2]) 1 0 100 5
      ((DynInst.new 4096 0 true 1).setMetaInfo 0 deadbeef deadbeef deadbeef 2)
      (by decide)).elim
      (fun prof hp => ⟨prof, hp.1, by
        have h1 := hp.1
        have hprof : prof = { ImemInst.new
            (((DynInst.new 4096 0 true 1).setMetaInfo 0 deadbeef deadbeef deadbeef
              2).setFinalInfo 0 100 5) with
            count_ := 1, total_latency_ := 5, last_value_ := 100,
            cache_hit_map_ := [(1, 1)], value_map_ := [(100, 1)] } := by
          have h2 : mapFind ((InstTracker.empty.run
              [.issue 1 4096 0 true 1, .exec 1 0 deadbeef deadbeef deadbeef 2]).addInstRetire
                1 0 100 5).tracked_insts_ 4096 = some { ImemInst.new
            (((DynInst.new 4096 0 true 1).setMetaInfo 0 deadbeef deadbeef deadbeef
              2).setFinalInfo 0 100 5) with
            count_ := 1, total_latency_ := 5, last_value_ := 100,
            cache_hit_map_ := [(1, 1)], value_map_ := [(100, 1)] } := by decide
          have h3 : (((DynInst.new 4096 0 true 1).setMetaInfo 0 deadbeef deadbeef deadbeef
              2).getPcStr) = 4096 := rfl
          rw [h3] at h1
          rw [h2] at h1
          exact (Option.some.inj h1).symm
        subst hprof
        exact ⟨rfl, rfl, rfl, rfl, rfl⟩⟩)⟩


/-! ## The sorted entries of a distribution -/

theorem sortInsert_perm (x : Nat × Nat) (l : List (Nat × Nat)) :
    (sortInsert x l).Perm (x :: l) := by
  induction l with
  | nil => exact List.Perm.refl _
  | cons y ys ih =>
    simp only [sortInsert]
    split
    · exact List.Perm.refl _
    · exact ((List.Perm.cons y ih).trans (List.Perm.swap x y ys))

theorem sortPatterns_perm (l : List (Nat × Nat)) : (sortPatterns l).Perm l := by
  induction l with
  | nil => exact List.Perm.refl _
  | cons x xs ih =>
    simp only [sortPatterns]
    exact (sortInsert_perm x _).trans (List.Perm.cons x ih)

theorem sortInsert_sorted (x : Nat × Nat) (l : List (Nat × Nat))
    (h : l.Pairwise (fun a b => b.2 ≤ a.2)) :
    (sortInsert x l).Pairwise (fun a b => b.2 ≤ a.2) := by
  induction l with
  | nil => simp [sortInsert]
  | cons y ys ih =>
    rw [List.pairwise_cons] at h
    simp only [sortInsert]
    split
    · rename_i hb
      have hxy : x.2 > y.2 := by simpa [patternBefore] using hb
      rw [List.pairwise_cons]
      refine ⟨?_, List.pairwise_cons.mpr h⟩
      intro z hz
      rcases List.mem_cons.mp hz with hz | hz
      · subst hz
        omega
      · have := h.1 z hz
        omega
    · rename_i hb
      have hxy : ¬ x.2 > y.2 := by simpa [patternBefore] using hb
      rw [List.pairwise_cons]
      refine ⟨?_, ih h.2⟩
      intro z hz
      have hz' := (sortInsert_perm x ys).subset hz
      rcases List.mem_cons.mp hz' with hz' | hz'
      · subst hz'
        omega
      · exact h.1 z hz'

theorem sortPatterns_sorted (l : List (Nat × Nat)) :
    (sortPatterns l).Pairwise (fun a b => b.2 ≤ a.2) := by
  induction l with
  | nil => exact List.Pairwise.nil
  | cons x xs ih =>
    simp only [sortPatterns]
    exact sortInsert_sorted x _ ih

theorem sortPatterns_length (l : List (Nat × Nat)) : (sortPatterns l).length = l.length :=
  (sortPatterns_perm l).length_eq

theorem distTotal_sortPatterns (l : List (Nat × Nat)) :
    distTotal (sortPatterns l) = distTotal l := by
  unfold distTotal
  exact ((sortPatterns_perm l).map Prod.snd).sum_eq

/-! ## The text of a summary -/

theorem digitChar_ne_comma (n : Nat) : Nat.digitChar n ≠ ',' := by
  by_cases h : n < 16
  · interval_cases n <;> decide
  · unfold Nat.digitChar
    repeat rw [if_neg (by omega)]
    decide

theorem toDigitsCore_no_comma (base : Nat) : ∀ (fuel n : Nat) (ds : List Char),
    (∀ c ∈ ds, c ≠ ',') → ∀ c ∈ Nat.toDigitsCore base fuel n ds, c ≠ ',' := by
  intro fuel
  induction fuel with
  | zero =>
    intro n ds h c hc
    simp only [Nat.toDigitsCore] at hc
    exact h c hc
  | succ fuel ih =>
    intro n ds h c hc
    simp only [Nat.toDigitsCore] at hc
    have hds : ∀ c ∈ Nat.digitChar (n % base) :: ds, c ≠ ',' := by
      intro c' hc'
      rcases List.mem_cons.mp hc' with hc' | hc'
      · rw [hc']
        exact digitChar_ne_comma _
      · exact h c' hc'
    split at hc
    · exact hds c hc
    · exact ih _ _ hds c hc

theorem hexStr_no_comma (n : Nat) : ∀ c ∈ (hexStr n).data, c ≠ ',' := by
  intro c hc
  exact toDigitsCore_no_comma 16 _ _ [] (fun c' hc' => absurd hc' (List.not_mem_nil c')) c hc

theorem decStr_no_comma (n : Nat) : ∀ c ∈ (decStr n).data, c ≠ ',' := by
  intro c hc
  exact toDigitsCore_no_comma 10 _ _ [] (fun c' hc' => absurd hc' (List.not_mem_nil c')) c hc

theorem keyStr_no_comma (key : Nat) (stride : Bool) :
    ∀ c ∈ (keyStr key stride).data, c ≠ ',' := by
  intro c hc
  unfold keyStr at hc
  split at hc
  · split at hc
    · simp only [String.data_append, List.mem_append] at hc
      rcases hc with (hc | hc) | hc
      · revert c
        decide
      · exact hexStr_no_comma _ c hc
      · revert c
        decide
    · simp only [String.data_append, List.mem_append] at hc
      rcases hc with (hc | hc) | hc
      · revert c
        decide
      · exact hexStr_no_comma _ c hc
      · revert c
        decide
  · simp only [String.data_append, List.mem_append] at hc
    rcases hc with (hc | hc) | hc
    · revert c
      decide
    · exact hexStr_no_comma _ c hc
    · revert c
      decide

theorem entryStr_no_comma (p : Nat × Nat) (stride : Bool) (eff_count : Nat) :
    ∀ c ∈ (entryStr p stride eff_count).data, c ≠ ',' := by
  intro c hc
  unfold entryStr at hc
  simp only [String.data_append, List.mem_append] at hc
  rcases hc with (((hc | hc) | hc) | hc) | hc
  · exact keyStr_no_comma _ _ c hc
  · exact decStr_no_comma _ c hc
  · revert c
    decide
  · exact decStr_no_comma _ c hc
  · revert c
    decide

theorem entryStr_ne_placeholder (p : Nat × Nat) (stride : Bool) (eff_count : Nat) :
    entryStr p stride eff_count ≠ "-" := by
  intro h
  have hd := congrArg String.data h
  unfold entryStr at hd
  rw [String.data_append] at hd
  have hr := congrArg List.reverse hd
  rw [List.reverse_append] at hr
  have h1 : "%".data.reverse = ['%'] := rfl
  have h2 : "-".data.reverse = ['-'] := rfl
  rw [h1, h2] at hr
  have hh := congrArg List.head? hr
  simp only [List.singleton_append, List.head?_cons, Option.some.injEq] at hh
  revert hh
  decide

theorem get_pattern_of_slots (m : ImemInst) (dist : List (Nat × Nat)) (stride : Bool)
    (s0 s1 s2 s3 : String)
    (h0 : slotStr (sortPatterns dist) stride (m.effCount stride) 0 = some s0)
    (h1 : slotStr (sortPatterns dist) stride (m.effCount stride) 1 = some s1)
    (h2 : slotStr (sortPatterns dist) stride (m.effCount stride) 2 = some s2)
    (h3 : slotStr (sortPatterns dist) stride (m.effCount stride) 3 = some s3) :
    m.get_pattern dist stride = some (s0 ++ ", " ++ s1 ++ ", " ++ s2 ++ ", " ++ s3) := by
  have hr : List.range top_n = [0, 1, 2, 3] := rfl
  simp only [ImemInst.get_pattern, hr, List.foldl, h0, h1, h2, h3]
  simp [top_n, String.append_assoc]


theorem slotStr_eq_slotText (patterns : List (Nat × Nat)) (stride : Bool) (eff_count i : Nat)
    (h : patterns ≠ [] → eff_count ≠ 0) :
    slotStr patterns stride eff_count i = some (slotText patterns stride eff_count i) := by
  unfold slotStr slotText
  cases hp : patterns[i]? with
  | none => rfl
  | some p =>
    have hne : patterns ≠ [] := by
      intro hnil
      rw [hnil] at hp
      simp at hp
    simp only [h hne, if_false]

theorem slotText_no_comma (patterns : List (Nat × Nat)) (stride : Bool) (eff_count i : Nat) :
    ∀ c ∈ (slotText patterns stride eff_count i).data, c ≠ ',' := by
  unfold slotText
  cases patterns[i]? with
  | none =>
    have hp : ∀ c ∈ "-".data, c ≠ ',' := by decide
    exact hp
  | some p => exact entryStr_no_comma p stride eff_count

theorem slotText_placeholder_iff (patterns : List (Nat × Nat)) (stride : Bool)
    (eff_count i : Nat) :
    slotText patterns stride eff_count i = "-" ↔ patterns.length ≤ i := by
  unfold slotText
  cases hp : patterns[i]? with
  | none =>
    simp only [true_iff]
    exact List.getElem?_eq_none_iff.mp hp
  | some p =>
    constructor
    · intro h
      exact absurd h (entryStr_ne_placeholder p stride eff_count)
    · intro h
      rw [List.getElem?_eq_none_iff.mpr h] at hp
      exact Option.noConfusion hp

theorem le_distTotal_of_mem (dist : List (Nat × Nat)) (e : Nat × Nat) (h : e ∈ dist) :
    e.2 ≤ distTotal dist := by
  induction dist with
  | nil => exact absurd h (List.not_mem_nil e)
  | cons x rest ih =>
    simp only [distTotal, List.map_cons, List.sum_cons]
    rcases List.mem_cons.mp h with h | h
    · subst h
      omega
    · have := ih h
      simp only [distTotal] at this
      omega

theorem distTotal_take_le (dist : List (Nat × Nat)) (n : Nat) :
    distTotal (dist.take n) ≤ distTotal dist := by
  have h : distTotal dist = distTotal (dist.take n) + distTotal (dist.drop n) := by
    conv_lhs => rw [← List.take_append_drop n dist]
    simp only [distTotal, List.map_append, List.sum_append]
  omega

theorem percent_sum_mul_le (l : List (Nat × Nat)) (eff_count : Nat) :
    eff_count * (l.map (fun p => 100 * p.2 / eff_count)).sum ≤ 100 * distTotal l := by
  induction l with
  | nil => simp [distTotal]
  | cons x rest ih =>
    simp only [distTotal, List.map_cons, List.sum_cons] at ih ⊢
    have h1 := Nat.mul_div_le (100 * x.2) eff_count
    rw [Nat.mul_add, Nat.mul_add]
    omega

theorem percent_sum_le (l : List (Nat × Nat)) (eff_count : Nat)
    (h : distTotal l ≤ eff_count) :
    (l.map (fun p => 100 * p.2 / eff_count)).sum ≤ 100 := by
  by_cases h0 : eff_count = 0
  · subst h0
    simp
  · have h1 := percent_sum_mul_le l eff_count
    have h2 : eff_count * (l.map (fun p => 100 * p.2 / eff_count)).sum
        ≤ eff_count * 100 := by
      calc eff_count * (l.map (fun p => 100 * p.2 / eff_count)).sum
          ≤ 100 * distTotal l := h1
        _ ≤ 100 * eff_count := Nat.mul_le_mul_left 100 h
        _ = eff_count * 100 := Nat.mul_comm _ _
    exact Nat.le_of_mul_le_mul_left h2 (Nat.pos_of_ne_zero h0)

theorem distTotal_le_effCount (p : ImemInst) (h : ProfileOk p) (stride : Bool) :
    distTotal (p.distOf stride) ≤ p.effCount stride := by
  cases stride with
  | true =>
    simp only [ImemInst.distOf, ImemInst.effCount, if_true]
    exact h.stride_total
  | false =>
    simp only [ImemInst.distOf, ImemInst.effCount, Bool.false_eq_true, if_false]
    cases hc : p.is_candidate_ with
    | true => exact Nat.le_of_eq (h.value_total hc)
    | false =>
      rw [(h.noncandidate hc).1]
      exact Nat.zero_le _

theorem distOf_pos (p : ImemInst) (h : ProfileOk p) (stride : Bool) :
    ∀ e ∈ p.distOf stride, 1 ≤ e.2 := by
  cases stride with
  | true => exact h.stride_pos
  | false => exact h.value_pos

theorem distOf_nodup (p : ImemInst) (h : ProfileOk p) (stride : Bool) :
    (mapKeys (p.distOf stride)).Nodup := by
  cases stride with
  | true => exact h.stride_keys
  | false => exact h.value_keys

theorem effCount_ne_zero (p : ImemInst) (h : ProfileOk p) (stride : Bool)
    (hne : sortPatterns (p.distOf stride) ≠ []) : p.effCount stride ≠ 0 := by
  have hne' : p.distOf stride ≠ [] := by
    intro hnil
    rw [hnil] at hne
    exact hne rfl
  obtain ⟨e, he⟩ := List.exists_mem_of_ne_nil _ hne'
  have h1 := distOf_pos p h stride e he
  have h2 := le_distTotal_of_mem _ e he
  have h3 := distTotal_le_effCount p h stride
  omega

/-! ## Distribution summaries -/

/-- C9: for a profile of a reachable state and either of its distributions,
`get_pattern` returns four slots joined by `", "`, none of which contains a
comma; slot `i` is the placeholder `"-"` exactly when `i` is at least the
number of entries of the distribution (whose keys are distinct); a slot
below that number shows an entry as key, count and the percentage
`100 * count / effectiveTotal`, rounded down, where `effectiveTotal` is the
retire count for the value distribution and the retire count minus one for
the stride distribution; the percentages shown sum to at most 100. -/
theorem summary_shape (t : InstTracker) (h : Reachable t) (e : Nat × ImemInst)
    (he : e ∈ t.tracked_insts_) (stride : Bool) :
    e.2.get_pattern (e.2.distOf stride) stride
        = some (slotText (sortPatterns (e.2.distOf stride)) stride (e.2.effCount stride) 0
            ++ ", " ++ slotText (sortPatterns (e.2.distOf stride)) stride (e.2.effCount stride) 1
            ++ ", " ++ slotText (sortPatterns (e.2.distOf stride)) stride (e.2.effCount stride) 2
            ++ ", " ++ slotText (sortPatterns (e.2.distOf stride)) stride (e.2.effCount stride) 3)
      ∧ (∀ i, ∀ c ∈ (slotText (sortPatterns (e.2.distOf stride)) stride
            (e.2.effCount stride) i).data, c ≠ ',')
      ∧ (∀ i, slotText (sortPatterns (e.2.distOf stride)) stride (e.2.effCount stride) i = "-"
            ↔ (e.2.distOf stride).length ≤ i)
      ∧ (mapKeys (e.2.distOf stride)).Nodup
      ∧ (∀ i, i < (e.2.distOf stride).length →
          ∃ p, (sortPatterns (e.2.distOf stride))[i]? = some p ∧ p ∈ e.2.distOf stride
            ∧ slotText (sortPatterns (e.2.distOf stride)) stride (e.2.effCount stride) i
                = keyStr p.1 stride ++ decStr p.2 ++ "/"
                    ++ decStr (100 * p.2 / (if stride then e.2.count_ - 1 else e.2.count_))
                    ++ "%")
      ∧ (((sortPatterns (e.2.distOf stride)).take top_n).map
            (fun p => 100 * p.2 / (if stride then e.2.count_ - 1 else e.2.count_))).sum
          ≤ 100 := by
  have hok : ProfileOk e.2 := ((trackedOk_of_reachable t h) e he).1
  have heff : ∀ hne : sortPatterns (e.2.distOf stride) ≠ [], e.2.effCount stride ≠ 0 :=
    effCount_ne_zero e.2 hok stride
  refine ⟨?_, ?_, ?_, distOf_nodup e.2 hok stride, ?_, ?_⟩
  · exact get_pattern_of_slots e.2 _ stride _ _ _ _
      (slotStr_eq_slotText _ _ _ 0 heff) (slotStr_eq_slotText _ _ _ 1 heff)
      (slotStr_eq_slotText _ _ _ 2 heff) (slotStr_eq_slotText _ _ _ 3 heff)
  · intro i
    exact slotText_no_comma _ _ _ i
  · intro i
    rw [slotText_placeholder_iff, sortPatterns_length]
  · intro i hi
    have hi' : i < (sortPatterns (e.2.distOf stride)).length := by
      rw [sortPatterns_length]; exact hi
    refine ⟨(sortPatterns (e.2.distOf stride))[i], List.getElem?_eq_getElem hi', ?_, ?_⟩
    · exact (sortPatterns_perm _).subset (List.getElem_mem hi')
    · simp only [slotText, List.getElem?_eq_getElem hi', entryStr, ImemInst.effCount]
  · have h1 : distTotal ((sortPatterns (e.2.distOf stride)).take top_n)
        ≤ e.2.effCount stride :=
      calc distTotal ((sortPatterns (e.2.distOf stride)).take top_n)
          ≤ distTotal (sortPatterns (e.2.distOf stride)) := distTotal_take_le _ _
        _ = distTotal (e.2.distOf stride) := distTotal_sortPatterns _
        _ ≤ e.2.effCount stride := distTotal_le_effCount e.2 hok stride
    exact percent_sum_le _ _ h1


/-- The profile of the example trace: its stride summary shows the strides 0
(50%), -8 and 3 (25% each) and one placeholder, and the percentages sum to at
most 100. -/
theorem summary_shape_witness :
    Reachable (InstTracker.empty.run exampleTrace)
      ∧ (4096, exampleProfile) ∈ (InstTracker.empty.run exampleTrace).tracked_insts_
      ∧ exampleProfile.get_pattern (exampleProfile.distOf true) true
          = some "0x0/2/50%, -0x8/1/25%, 0x3/1/25%, -"
      ∧ exampleProfile.get_pattern (exampleProfile.distOf false) false
          = some "0xd/2/40%, 0xa/2/40%, 0x5/1/20%, -"
      ∧ (((sortPatterns (exampleProfile.distOf true)).take top_n).map
            (fun p => 100 * p.2 / (if true then exampleProfile.count_ - 1
              else exampleProfile.count_))).sum ≤ 100 :=
  ⟨⟨exampleTrace, rfl⟩, by decide, by decide, by decide,
    (summary_shape (InstTracker.empty.run exampleTrace) ⟨exampleTrace, rfl⟩
      (4096, exampleProfile) (by decide) true).2.2.2.2.2⟩

theorem slotText_take (patterns : List (Nat × Nat)) (stride : Bool) (eff_count i : Nat)
    (h : i < top_n) :
    slotText (patterns.take top_n) stride eff_count i
      = slotText patterns stride eff_count i := by
  unfold slotText
  rw [List.getElem?_take_of_lt h]

theorem get_pattern_none (m : ImemInst) (dist : List (Nat × Nat)) (stride : Bool)
    (hne : dist ≠ []) (h0 : m.effCount stride = 0) : m.get_pattern dist stride = none := by
  have hlen : 0 < (sortPatterns dist).length := by
    rw [sortPatterns_length]
    exact List.length_pos.mpr hne
  have hslot : slotStr (sortPatterns dist) stride (m.effCount stride) 0 = none := by
    unfold slotStr
    rw [List.getElem?_eq_getElem hlen]
    simp only [h0, if_true]
  have hr : List.range top_n = [0, 1, 2, 3] := rfl
  simp only [ImemInst.get_pattern, hr, List.foldl, hslot]

theorem get_pattern_some (m : ImemInst) (dist : List (Nat × Nat)) (stride : Bool)
    (h : dist ≠ [] → m.effCount stride ≠ 0) :
    m.get_pattern dist stride
      = some (slotText ((sortPatterns dist).take top_n) stride (m.effCount stride) 0
          ++ ", " ++ slotText ((sortPatterns dist).take top_n) stride (m.effCount stride) 1
          ++ ", " ++ slotText ((sortPatterns dist).take top_n) stride (m.effCount stride) 2
          ++ ", " ++ slotText ((sortPatterns dist).take top_n) stride (m.effCount stride) 3) := by
  have heff : sortPatterns dist ≠ [] → m.effCount stride ≠ 0 := by
    intro hne
    apply h
    intro hnil
    rw [hnil] at hne
    exact hne rfl
  rw [slotText_take _ _ _ 0 (by decide), slotText_take _ _ _ 1 (by decide),
    slotText_take _ _ _ 2 (by decide), slotText_take _ _ _ 3 (by decide)]
  exact get_pattern_of_slots m dist stride _ _ _ _
    (slotStr_eq_slotText _ _ _ 0 heff) (slotStr_eq_slotText _ _ _ 1 heff)
    (slotStr_eq_slotText _ _ _ 2 heff) (slotStr_eq_slotText _ _ _ 3 heff)

/-- C10: what `get_pattern` returns, for every profile and distribution, in
terms of the shown entries, the first `top_n = 4` entries of the sorted
vector. Unless it divides by zero (a distribution with entries and
`eff_count` zero), it returns the four slot texts joined by `", "`, where slot
`i` is not the placeholder exactly when `i` is below the number of shown
entries, and then is the text of shown entry `i`: its key, its count and its
percentage. The shown entries are entries of the distribution at distinct
positions (with the entries not shown they make up the distribution, and
their keys are distinct when the keys of the distribution are), there are
`min 4 size` of them, their counts do not increase from one slot to the next,
and no entry that is not shown has a larger count than an entry that is. -/
theorem summary_ranking (m : ImemInst) (dist : List (Nat × Nat)) (stride : Bool) :
    m.get_pattern dist stride
        = (if dist ≠ [] ∧ m.effCount stride = 0 then none
            else some
              (slotText ((sortPatterns dist).take top_n) stride (m.effCount stride) 0
                ++ ", "
                ++ slotText ((sortPatterns dist).take top_n) stride (m.effCount stride) 1
                ++ ", "
                ++ slotText ((sortPatterns dist).take top_n) stride (m.effCount stride) 2
                ++ ", "
                ++ slotText ((sortPatterns dist).take top_n) stride (m.effCount stride) 3))
      ∧ (∀ i, slotText ((sortPatterns dist).take top_n) stride (m.effCount stride) i = "-"
            ↔ ((sortPatterns dist).take top_n).length ≤ i)
      ∧ (∀ i p, ((sortPatterns dist).take top_n)[i]? = some p →
          slotText ((sortPatterns dist).take top_n) stride (m.effCount stride) i
            = keyStr p.1 stride ++ decStr p.2 ++ "/"
                ++ decStr (100 * p.2 / (if stride then m.count_ - 1 else m.count_)) ++ "%")
      ∧ ((sortPatterns dist).take top_n ++ (sortPatterns dist).drop top_n).Perm dist
      ∧ ((sortPatterns dist).take top_n).length = min top_n dist.length
      ∧ ((sortPatterns dist).take top_n).Pairwise (fun a b => b.2 ≤ a.2)
      ∧ (∀ x ∈ (sortPatterns dist).drop top_n, ∀ y ∈ (sortPatterns dist).take top_n,
          x.2 ≤ y.2)
      ∧ ((mapKeys dist).Nodup → (mapKeys ((sortPatterns dist).take top_n)).Nodup) := by
  refine ⟨?_, ?_, ?_, ?_, ?_, ?_, ?_, ?_⟩
  · by_cases hz : dist ≠ [] ∧ m.effCount stride = 0
    · rw [if_pos hz]
      exact get_pattern_none m dist stride hz.1 hz.2
    · rw [if_neg hz]
      exact get_pattern_some m dist stride (fun hne h0 => hz ⟨hne, h0⟩)
  · intro i
    exact slotText_placeholder_iff _ _ _ i
  · intro i p hp
    simp only [slotText, hp, entryStr, ImemInst.effCount]
  · rw [List.take_append_drop]
    exact sortPatterns_perm dist
  · rw [List.length_take, sortPatterns_length]
  · exact (sortPatterns_sorted dist).sublist (List.take_sublist _ _)
  · have hs := sortPatterns_sorted dist
    rw [← List.take_append_drop top_n (sortPatterns dist), List.pairwise_append] at hs
    intro x hx y hy
    exact hs.2.2 y hy x hx
  · intro hnd
    have h1 : (mapKeys (sortPatterns dist)).Nodup :=
      (((sortPatterns_perm dist).map Prod.fst).nodup_iff).mpr hnd
    exact h1.sublist ((List.take_sublist _ _).map Prod.fst)

/-- The ranking of a distribution with five entries in a profile that has
retired 15 times: the four largest counts are shown in order, the smallest is
not; with a retire count of zero the division has no result. -/
theorem ranking_example :
    (sortPatterns [(7, 1), (8, 5), (9, 3), (10, 2), (11, 4)]).take top_n
        = [(8, 5), (11, 4), (9, 3), (10, 2)]
      ∧ (sortPatterns [(7, 1), (8, 5), (9, 3), (10, 2), (11, 4)]).drop top_n = [(7, 1)]
      ∧ (profileWithCount 4096 15).get_pattern
          [(7, 1), (8, 5), (9, 3), (10, 2), (11, 4)] false
          = some "0x8/5/33%, 0xb/4/26%, 0x9/3/20%, 0xa/2/13%"
      ∧ (profileWithCount 4096 0).get_pattern
          [(7, 1), (8, 5), (9, 3), (10, 2), (11, 4)] false = none := by
  decide


/-! ## The report -/

theorem markerCounts_append (a b : List Out) :
    markerCounts (a ++ b) = markerCounts a ++ markerCounts b := by
  induction a with
  | nil => rfl
  | cons x rest ih =>
    cases x <;> simp [markerCounts, ih]

theorem printedLines_append (a b : List Out) :
    printedLines (a ++ b) = printedLines a + printedLines b := by
  induction a with
  | nil => simp [printedLines]
  | cons x rest ih =>
    cases x <;> simp [printedLines, ih]
    omega

theorem dumpLoop_snoc (total_count : Nat) (tracked : List (Nat × ImemInst))
    (x : Nat × ImemInst) :
    dumpLoop total_count (tracked ++ [x])
      = dumpStep total_count (dumpLoop total_count tracked) x := by
  simp [dumpLoop, List.foldl_append]

theorem elidedProfiles_snoc (total_count : Nat) (tracked : List (Nat × ImemInst))
    (x : Nat × ImemInst) :
    elidedProfiles total_count (tracked ++ [x])
      = elidedProfiles total_count tracked
        ++ (if weightBelow x.2.count_ total_count then [x] else []) := by
  simp only [elidedProfiles, List.filter_append]
  congr 1
  by_cases h : weightBelow x.2.count_ total_count = true
  · simp [List.filter, h]
  · simp [List.filter, h]

/-- What the loop of `dumpImem` has written after any table of fewer than
`2 ^ 32` profiles: the counts of the markers written so far and the count of
the run that is still open add up to the number of elided profiles, the
profile lines and the elided profiles add up to the number of profiles, and
no run is open exactly when the last profile was printed (or there is none). -/
theorem dumpLoop_accounts (total_count : Nat) (tracked : List (Nat × ImemInst))
    (hlen : tracked.length < 2 ^ 32) :
    (markerCounts (dumpLoop total_count tracked).out).sum
        + (dumpLoop total_count tracked).skipped_lines
        = (elidedProfiles total_count tracked).length
      ∧ printedLines (dumpLoop total_count tracked).out
          + (elidedProfiles total_count tracked).length = tracked.length
      ∧ ((dumpLoop total_count tracked).skipping = false →
          (dumpLoop total_count tracked).skipped_lines = 0)
      ∧ ((dumpLoop total_count tracked).skipping = true →
          1 ≤ (dumpLoop total_count tracked).skipped_lines) := by
  induction tracked using List.reverseRecOn with
  | nil =>
    simp [dumpLoop, DumpState.init, markerCounts, printedLines, elidedProfiles]
  | append_singleton rest x ih =>
    have hlen' : rest.length < 2 ^ 32 := by
      simp only [List.length_append, List.length_singleton] at hlen
      omega
    obtain ⟨h1, h2, h3, h4⟩ := ih hlen'
    have hle : (elidedProfiles total_count rest).length ≤ rest.length := by
      unfold elidedProfiles
      exact List.length_filter_le _ _
    have hrest : rest.length + 1 < 2 ^ 32 := by
      simp only [List.length_append, List.length_singleton] at hlen
      exact hlen
    rw [dumpLoop_snoc, elidedProfiles_snoc]
    by_cases hw : weightBelow x.2.count_ total_count = true
    · have hmod : ((dumpLoop total_count rest).skipped_lines + 1) % 2 ^ 32
          = (dumpLoop total_count rest).skipped_lines + 1 := by
        apply Nat.mod_eq_of_lt
        omega
      simp only [dumpStep, hw, if_true, hmod, List.length_append, List.length_singleton]
      refine ⟨?_, ?_, ?_, ?_⟩
      · cases hs : (dumpLoop total_count rest).skipping with
        | true =>
          simp only [Bool.not_true, Bool.false_eq_true, if_false]
          omega
        | false =>
          simp only [Bool.not_false, if_true, markerCounts_append, markerCounts,
            List.append_nil]
          omega
      · cases hs : (dumpLoop total_count rest).skipping with
        | true =>
          simp only [Bool.not_true, Bool.false_eq_true, if_false]
          omega
        | false =>
          simp only [Bool.not_false, if_true, printedLines_append, printedLines]
          omega
      · intro hf
        exact Bool.noConfusion hf
      · intro _
        omega
    · simp only [dumpStep, hw, if_false, List.length_append, List.length_singleton,
        List.length_nil, Bool.false_eq_true]
      cases hs : (dumpLoop total_count rest).skipping with
      | true =>
        simp only [if_true, markerCounts_append, markerCounts, printedLines_append,
          printedLines, List.sum_append, List.sum_cons, List.sum_nil, List.append_nil]
        refine ⟨by omega, by omega, ?_, ?_⟩
        · simp
        · simp
      | false =>
        have h0 := h3 hs
        simp only [Bool.false_eq_true, if_false, markerCounts_append, markerCounts,
          printedLines_append, printedLines, List.append_nil]
        refine ⟨by omega, by omega, ?_, ?_⟩
        · simp [h0]
        · simp

set_option maxRecDepth 100000 in
/-- C11: the code at a table that ends in elided profiles. With a total of
100000, the profile with count 99998 is printed and the two profiles with
count 1 that follow are elided; the output has the text ` ... skipped ` and
then the end marker: the count 2 and ` lines.` of this last run are never
written. A run in the middle of the table gets its marker. -/
theorem dumpImem_trailing_run :
    InstTracker.dumpImem
        { inflight_insts_ := [],
          tracked_insts_ := [(4096, profileWithCount 4096 99998),
            (4100, profileWithCount 4100 1), (4104, profileWithCount 4104 1)],
          last_retired_seq_no_ := 0, total_count_ := 100000 }
        = [Out.startMarker, Out.line (profileWithCount 4096 99998) 99998, Out.skipOpen,
            Out.endMarker]
      ∧ InstTracker.dumpImem
        { inflight_insts_ := [],
          tracked_insts_ := [(4100, profileWithCount 4100 1),
            (4104, profileWithCount 4104 1), (4096, profileWithCount 4096 99998)],
          last_retired_seq_no_ := 0, total_count_ := 100000 }
        = [Out.startMarker, Out.skipOpen, Out.skipClose 2,
            Out.line (profileWithCount 4096 99998) 100000, Out.endMarker] := by
  decide

set_option maxRecDepth 100000 in
/-- C14: the code at a share of exactly 0.01%. With count 1 and total 10000
the quotient in `double` is the `double` nearest to 0.01; stored in a `float`
it becomes 10737418 / 2 ^ 30, which is below the `double` constant 0.01, so
the profile is elided although `10000 * 1 < 10000` is false. -/
theorem weight_at_threshold :
    weightOf 1 10000 = (10737418, 2 ^ 30)
      ∧ toDouble (1, 100) = (5764607523034235, 2 ^ 59)
      ∧ weightBelow 1 10000 = true
      ∧ ¬ (10000 * 1 < 10000)
      ∧ InstTracker.dumpImem
          { inflight_insts_ := [], tracked_insts_ := [(4096, profileWithCount 4096 1)],
            last_retired_seq_no_ := 0, total_count_ := 10000 }
          = [Out.startMarker, Out.skipOpen, Out.endMarker] := by
  decide


/-! ## Execute and the persistence of profiles -/

theorem addInstExec_of_not_mem (t : InstTracker) (seq_no inst_class src1 src2 src3 dst : Nat)
    (h : seq_no ∉ mapKeys t.inflight_insts_) :
    t.addInstExec seq_no inst_class src1 src2 src3 dst = t := by
  simp only [InstTracker.addInstExec]
  rw [if_pos ((mapCount_eq_zero_iff _ _).mpr h)]

theorem addInstExec_of_find (t : InstTracker) (seq_no inst_class src1 src2 src3 dst : Nat)
    (d : DynInst) (h : mapFind t.inflight_insts_ seq_no = some d) :
    t.addInstExec seq_no inst_class src1 src2 src3 dst
      = { t with inflight_insts_ :=
            mapSet t.inflight_insts_ seq_no (d.setMetaInfo inst_class src1 src2 src3 dst) } := by
  have hmem := mem_mapKeys_of_mapFind _ _ _ h
  have hc : ¬ mapCount t.inflight_insts_ seq_no = 0 := fun h0 =>
    (mapCount_eq_zero_iff _ _).mp h0 hmem
  simp only [InstTracker.addInstExec]
  rw [if_neg hc, h]

/-- C12: `addInstExec` leaves the whole state unchanged when the sequence
number is not in flight. When it is in flight with record `d`, the in-flight
keys, every other in-flight record, the completed table, the total retired
counter and the last-retired sequence number are unchanged, and the record of
the sequence number becomes `d` with the given instruction class, the three
given source registers and the given destination register, whatever their
values; its pc, piece, candidacy flag, cache-hit and final information are
those of `d`. -/
theorem addInstExec_metadata_only (t : InstTracker)
    (seq_no inst_class src1 src2 src3 dst : Nat) :
    (seq_no ∉ mapKeys t.inflight_insts_ →
        t.addInstExec seq_no inst_class src1 src2 src3 dst = t)
      ∧ (∀ d, mapFind t.inflight_insts_ seq_no = some d →
          mapKeys (t.addInstExec seq_no inst_class src1 src2 src3 dst).inflight_insts_
              = mapKeys t.inflight_insts_
            ∧ (∀ j, j ≠ seq_no →
                mapFind (t.addInstExec seq_no inst_class src1 src2 src3 dst).inflight_insts_ j
                  = mapFind t.inflight_insts_ j)
            ∧ (t.addInstExec seq_no inst_class src1 src2 src3 dst).tracked_insts_
                = t.tracked_insts_
            ∧ (t.addInstExec seq_no inst_class src1 src2 src3 dst).total_count_
                = t.total_count_
            ∧ (t.addInstExec seq_no inst_class src1 src2 src3 dst).last_retired_seq_no_
                = t.last_retired_seq_no_
            ∧ mapFind (t.addInstExec seq_no inst_class src1 src2 src3 dst).inflight_insts_
                seq_no
                = some { d with inst_class_ := inst_class, src_regs_ := [src1, src2, src3],
                                dst_reg_ := dst }) := by
  refine ⟨addInstExec_of_not_mem t seq_no inst_class src1 src2 src3 dst, ?_⟩
  intro d hd
  rw [addInstExec_of_find t seq_no inst_class src1 src2 src3 dst d hd]
  refine ⟨?_, ?_, rfl, rfl, rfl, ?_⟩
  · exact mapKeys_mapSet_of_mem _ _ _ (mem_mapKeys_of_mapFind _ _ _ hd)
  · intro j hj
    exact mapFind_mapSet_other _ _ _ _ hj
  · exact mapFind_mapSet_same _ _ _

/-- The execute call of the end-to-end example, with absent source operands:
the record keeps its pc, candidacy flag and cache-hit and stores the sentinel
as it is. -/
theorem addInstExec_example :
    (InstTracker.empty.run
        [.issue 1 4096 0 true 1, .exec 1 0 deadbeef deadbeef deadbeef 2]).inflight_insts_
      = [(1, { pc_ := 4096, piece_ := 0, is_candidate_ := true, cache_hit_ := 1,
               inst_class_ := 0, src_regs_ := [deadbeef, deadbeef, deadbeef], dst_reg_ := 2,
               addr_ := 0, value_ := 0, latency_ := 0 })] := by
  decide

theorem step_tracked_find (t : InstTracker) (ev : Event) (pc : Nat) (p : ImemInst)
    (h : mapFind t.tracked_insts_ pc = some p) :
    mapFind (t.step ev).tracked_insts_ pc = some p
      ∨ ∃ d, mapFind (t.step ev).tracked_insts_ pc = some (p.addDynInst d) := by
  cases ev with
  | issue seq_no pc' piece is_candidate cache_hit =>
    left
    simp only [InstTracker.step]
    rw [addInstIssue_tracked]
    exact h
  | exec seq_no inst_class src1 src2 src3 dst =>
    left
    simp only [InstTracker.step]
    rw [addInstExec_tracked]
    exact h
  | retire seq_no addr value latency =>
    simp only [InstTracker.step]
    by_cases hmem : seq_no ∈ mapKeys t.inflight_insts_
    · obtain ⟨d, hd⟩ := mapFind_some_of_mem _ _ hmem
      rw [addInstRetire_tracked_of_find t seq_no addr value latency d hd]
      by_cases hpc : pc = d.pc_
      · right
        refine ⟨d.setFinalInfo addr value latency, ?_⟩
        subst hpc
        rw [mapFind_mapSet_same, h]
        rfl
      · left
        rw [mapFind_mapSet_other _ _ _ _ hpc]
        exact h
    · left
      rw [addInstRetire_tracked, beforeSweep_of_not_mem t seq_no addr value latency hmem]
      exact h

/-- C13: after any single call, every program counter that had a profile
still has one, with the same instruction class, destination register, source
register list and candidacy flag. -/
theorem profile_snapshot_persists (t : InstTracker) (ev : Event) (pc : Nat) (p : ImemInst)
    (h : mapFind t.tracked_insts_ pc = some p) :
    ∃ p', mapFind (t.step ev).tracked_insts_ pc = some p'
      ∧ p'.inst_class_ = p.inst_class_ ∧ p'.dst_reg_ = p.dst_reg_
      ∧ p'.src_regs_ = p.src_regs_ ∧ p'.is_candidate_ = p.is_candidate_ := by
  rcases step_tracked_find t ev pc p h with h' | ⟨d, h'⟩
  · exact ⟨p, h', rfl, rfl, rfl, rfl⟩
  · obtain ⟨h1, h2, h3, _⟩ := addDynInst_snapshot p d
    exact ⟨p.addDynInst d, h', h1, h2, h3, addDynInst_candidate p d⟩

/-- A profile created from an alu instance with destination 2 that is a
candidate; the same pc then retires from an instance executed as a load with
other operands and issued as a non-candidate. The profile keeps the first
snapshot and counts both. -/
theorem profile_snapshot_persists_witness :
    mapFind (InstTracker.empty.run
        [.issue 1 4096 0 true 1, .exec 1 0 3 4 deadbeef 2, .retire 1 0 100 5,
         .issue 2 4096 0 false 0, .exec 2 1 7 deadbeef deadbeef 9]).tracked_insts_ 4096
        = some { ImemInst.new ((DynInst.new 4096 0 true 1).setMetaInfo 0 3 4 deadbeef 2) with
                 count_ := 1, total_latency_ := 5, last_value_ := 100,
                 cache_hit_map_ := [(1, 1)], value_map_ := [(100, 1)] }
      ∧ (∃ p', mapFind ((InstTracker.empty.run
            [.issue 1 4096 0 true 1, .exec 1 0 3 4 deadbeef 2, .retire 1 0 100 5,
             .issue 2 4096 0 false 0, .exec 2 1 7 deadbeef deadbeef 9]).step
              (.retire 2 0 7 3)).tracked_insts_ 4096 = some p'
          ∧ p'.inst_class_ = 0 ∧ p'.dst_reg_ = 2
          ∧ p'.src_regs_ = [3, 4, deadbeef] ∧ p'.is_candidate_ = true) :=
  ⟨by decide,
    profile_snapshot_persists
      (InstTracker.empty.run
        [.issue 1 4096 0 true 1, .exec 1 0 3 4 deadbeef 2, .retire 1 0 100 5,
         .issue 2 4096 0 false 0, .exec 2 1 7 deadbeef deadbeef 9])
      (.retire 2 0 7 3) 4096
      { ImemInst.new ((DynInst.new 4096 0 true 1).setMetaInfo 0 3 4 deadbeef 2) with
        count_ := 1, total_latency_ := 5, last_value_ := 100,
        cache_hit_map_ := [(1, 1)], value_map_ := [(100, 1)] }
      (by decide)⟩


/-! ## Reclaiming the in-flight table -/

theorem addInstIssue_last (t : InstTracker) (seq_no pc piece : Nat)
    (is_candidate : Bool) (cache_hit : Nat) :
    (t.addInstIssue seq_no pc piece is_candidate cache_hit).last_retired_seq_no_
      = t.last_retired_seq_no_ := by
  simp only [InstTracker.addInstIssue]
  split <;> rfl

theorem addInstIssue_keys_subset (t : InstTracker) (seq_no pc piece : Nat)
    (is_candidate : Bool) (cache_hit : Nat) (k : Nat)
    (h : k ∈ mapKeys (t.addInstIssue seq_no pc piece is_candidate cache_hit).inflight_insts_) :
    k ∈ mapKeys t.inflight_insts_ ∨ k = seq_no := by
  simp only [InstTracker.addInstIssue] at h
  split at h
  · exact Or.inl h
  · rename_i hc
    have hnot : seq_no ∉ mapKeys t.inflight_insts_ := fun hh =>
      hc ((mapCount_pos_iff _ _).mpr hh)
    simp only at h
    rw [mapKeys_mapSet_of_not_mem _ _ _ hnot, List.mem_append, List.mem_singleton] at h
    exact h

theorem addInstExec_last (t : InstTracker) (seq_no inst_class src1 src2 src3 dst : Nat) :
    (t.addInstExec seq_no inst_class src1 src2 src3 dst).last_retired_seq_no_
      = t.last_retired_seq_no_ := by
  simp only [InstTracker.addInstExec]
  split
  · rfl
  · split <;> rfl

theorem addInstExec_keys (t : InstTracker) (seq_no inst_class src1 src2 src3 dst : Nat) :
    mapKeys (t.addInstExec seq_no inst_class src1 src2 src3 dst).inflight_insts_
      = mapKeys t.inflight_insts_ := by
  by_cases h : seq_no ∈ mapKeys t.inflight_insts_
  · obtain ⟨d, hd⟩ := mapFind_some_of_mem _ _ h
    rw [addInstExec_of_find t seq_no inst_class src1 src2 src3 dst d hd]
    exact mapKeys_mapSet_of_mem _ _ _ h
  · rw [addInstExec_of_not_mem t seq_no inst_class src1 src2 src3 dst h]

theorem run_append (t : InstTracker) (a b : List Event) :
    t.run (a ++ b) = (t.run a).run b := by
  simp [InstTracker.run, List.foldl_append]

theorem run_cons (t : InstTracker) (ev : Event) (rest : List Event) :
    t.run (ev :: rest) = (t.step ev).run rest := rfl

theorem orderedFrom_prefix (xs : List Event) : ∀ (issued : List Nat) (lastRetired : Option Nat)
    (ys : List Event), orderedFrom issued lastRetired (xs ++ ys) = true →
      orderedFrom issued lastRetired xs = true := by
  induction xs with
  | nil => intro issued lastRetired ys _; rfl
  | cons ev rest ih =>
    intro issued lastRetired ys h
    cases ev with
    | issue seq_no pc piece is_candidate cache_hit =>
      simp only [List.cons_append, orderedFrom, Bool.and_eq_true] at h ⊢
      exact ⟨h.1, ih _ _ ys h.2⟩
    | exec seq_no inst_class src1 src2 src3 dst =>
      simp only [List.cons_append, orderedFrom] at h ⊢
      exact ih _ _ ys h
    | retire seq_no addr value latency =>
      simp only [List.cons_append, orderedFrom, Bool.and_eq_true] at h ⊢
      exact ⟨h.1, ih _ _ ys h.2⟩

theorem keys_above_last (evs : List Event) : ∀ (t : InstTracker) (issued : List Nat)
    (lastRetired : Option Nat),
    (∀ k ∈ mapKeys t.inflight_insts_, t.last_retired_seq_no_ ≤ k) →
    (t.last_retired_seq_no_ = 0 ∨ t.last_retired_seq_no_ ∈ issued) →
    orderedFrom issued lastRetired evs = true →
    ∀ k ∈ mapKeys (t.run evs).inflight_insts_, (t.run evs).last_retired_seq_no_ ≤ k := by
  induction evs with
  | nil => intro t issued lastRetired h _ _; exact h
  | cons ev rest ih =>
    intro t issued lastRetired hkeys hlast hord
    rw [run_cons]
    cases ev with
    | issue seq_no pc piece is_candidate cache_hit =>
      simp only [orderedFrom, Bool.and_eq_true, List.all_eq_true, decide_eq_true_eq] at hord
      apply ih (t.step (.issue seq_no pc piece is_candidate cache_hit)) (seq_no :: issued)
        lastRetired ?_ ?_ hord.2
      · intro k hk
        simp only [InstTracker.step] at hk ⊢
        rw [addInstIssue_last]
        rcases addInstIssue_keys_subset t seq_no pc piece is_candidate cache_hit k hk with h | h
        · exact hkeys k h
        · subst h
          rcases hlast with h0 | hin
          · omega
          · exact Nat.le_of_lt (hord.1 _ hin)
      · simp only [InstTracker.step]
        rw [addInstIssue_last]
        rcases hlast with h0 | hin
        · exact Or.inl h0
        · exact Or.inr (List.mem_cons_of_mem _ hin)
    | exec seq_no inst_class src1 src2 src3 dst =>
      simp only [orderedFrom] at hord
      apply ih (t.step (.exec seq_no inst_class src1 src2 src3 dst)) issued lastRetired ?_ ?_ hord
      · intro k hk
        simp only [InstTracker.step] at hk ⊢
        rw [addInstExec_last]
        rw [addInstExec_keys] at hk
        exact hkeys k hk
      · simp only [InstTracker.step]
        rw [addInstExec_last]
        exact hlast
    | retire seq_no addr value latency =>
      simp only [orderedFrom, Bool.and_eq_true] at hord
      apply ih (t.step (.retire seq_no addr value latency)) issued (some seq_no) ?_ ?_ hord.2
      · intro k hk
        simp only [InstTracker.step] at hk ⊢
        rw [addInstRetire_last]
        rw [addInstRetire_keys, List.mem_filter, outsideSweep_iff] at hk
        have := hkeys k hk.1
        have hnot := hk.2
        by_contra hlt
        exact hnot ⟨this, by omega⟩
      · right
        simp only [InstTracker.step]
        rw [addInstRetire_last]
        exact List.elem_iff.mp hord.1.1

/-- C15: in a sequence of calls from the empty tracker in which the issued
sequence numbers strictly increase, the retired sequence numbers strictly
increase and every retired sequence number was issued before, after each
`retire N` every key of the in-flight table is at least `N`. -/
theorem inflight_reclaimed (evs pre post : List Event) (N addr value latency : Nat)
    (hord : orderedFrom [] none evs = true)
    (hsplit : evs = pre ++ Event.retire N addr value latency :: post) :
    ∀ k ∈ mapKeys (InstTracker.empty.run
        (pre ++ [Event.retire N addr value latency])).inflight_insts_, N ≤ k := by
  have hpre : orderedFrom [] none (pre ++ [Event.retire N addr value latency]) = true := by
    apply orderedFrom_prefix _ [] none post
    rw [List.append_assoc]
    rw [hsplit] at hord
    exact hord
  have hlast : (InstTracker.empty.run
      (pre ++ [Event.retire N addr value latency])).last_retired_seq_no_ = N := by
    rw [run_append]
    rfl
  intro k hk
  have := keys_above_last (pre ++ [Event.retire N addr value latency]) InstTracker.empty []
    none (fun k hk => absurd hk (List.not_mem_nil k)) (Or.inl rfl) hpre k hk
  rw [hlast] at this
  exact this

/-- Issue 1 to 4, retire 1, then retire 3: 2 was squashed; after the second
retirement the keys in flight are 3 and 4. -/
theorem inflight_reclaimed_witness :
    orderedFrom [] none
        [.issue 1 7 0 true 1, .issue 2 8 0 true 1, .issue 3 9 0 true 1, .issue 4 9 0 true 1,
         .retire 1 0 10 5, .retire 3 0 5 5, .exec 4 0 1 2 3 4] = true
      ∧ mapKeys (InstTracker.empty.run
          ([.issue 1 7 0 true 1, .issue 2 8 0 true 1, .issue 3 9 0 true 1,
            .issue 4 9 0 true 1, .retire 1 0 10 5]
            ++ [Event.retire 3 0 5 5])).inflight_insts_ = [3, 4]
      ∧ ∀ k ∈ mapKeys (InstTracker.empty.run
          ([.issue 1 7 0 true 1, .issue 2 8 0 true 1, .issue 3 9 0 true 1,
            .issue 4 9 0 true 1, .retire 1 0 10 5]
            ++ [Event.retire 3 0 5 5])).inflight_insts_, 3 ≤ k :=
  ⟨by decide, by decide,
    inflight_reclaimed
      [.issue 1 7 0 true 1, .issue 2 8 0 true 1, .issue 3 9 0 true 1, .issue 4 9 0 true 1,
       .retire 1 0 10 5, .retire 3 0 5 5, .exec 4 0 1 2 3 4]
      [.issue 1 7 0 true 1, .issue 2 8 0 true 1, .issue 3 9 0 true 1, .issue 4 9 0 true 1,
       .retire 1 0 10 5]
      [.exec 4 0 1 2 3 4] 3 0 5 5 (by decide) rfl⟩


/-! ## The rendering of keys, counts and percentages -/

theorem digitValue_digitChar (n : Nat) (h : n < 16) : digitValue (Nat.digitChar n) = n := by
  interval_cases n <;> decide

theorem foldl_digits_acc (base : Nat) (l : List Char) : ∀ acc : Nat,
    l.foldl (fun a c => a * base + digitValue c) acc
      = acc * base ^ l.length + l.foldl (fun a c => a * base + digitValue c) 0 := by
  induction l with
  | nil => intro acc; simp
  | cons c rest ih =>
    intro acc
    simp only [List.foldl, List.length_cons]
    rw [ih (acc * base + digitValue c), ih (0 * base + digitValue c)]
    rw [Nat.pow_succ]
    ring

theorem toDigitsCore_value (base : Nat) (h2 : 2 ≤ base) (h16 : base ≤ 16) :
    ∀ (fuel n : Nat) (ds : List Char), n < fuel →
      (Nat.toDigitsCore base fuel n ds).foldl (fun a c => a * base + digitValue c) 0
        = n * base ^ ds.length + ds.foldl (fun a c => a * base + digitValue c) 0 := by
  intro fuel
  induction fuel with
  | zero => intro n ds h; omega
  | succ fuel ih =>
    intro n ds h
    have hmod : n % base < 16 := Nat.lt_of_lt_of_le (Nat.mod_lt n (by omega)) h16
    simp only [Nat.toDigitsCore]
    split
    · rename_i hz
      have hn : n < base := by
        by_contra hge
        have := Nat.div_pos (Nat.le_of_not_lt hge) (by omega : 0 < base)
        omega
      simp only [List.foldl]
      rw [foldl_digits_acc, digitValue_digitChar _ hmod, Nat.mod_eq_of_lt hn]
      simp
    · rename_i hz
      have hlt : n / base < fuel := by
        have : n / base < n := Nat.div_lt_self (by
          by_contra h0
          have : n = 0 := by omega
          subst this
          simp at hz) h2
        omega
      rw [ih (n / base) _ hlt]
      simp only [List.foldl, List.length_cons]
      rw [foldl_digits_acc, digitValue_digitChar _ hmod, Nat.pow_succ]
      have hdm := Nat.div_add_mod n base
      calc n / base * (base ^ ds.length * base)
            + ((0 * base + n % base) * base ^ ds.length
              + ds.foldl (fun a c => a * base + digitValue c) 0)
          = (base * (n / base) + n % base) * base ^ ds.length
              + ds.foldl (fun a c => a * base + digitValue c) 0 := by ring
        _ = n * base ^ ds.length + ds.foldl (fun a c => a * base + digitValue c) 0 := by
            rw [hdm]

theorem readDigits_hexStr (n : Nat) : readDigits 16 (hexStr n) = n := by
  unfold readDigits hexStr Nat.toDigits
  rw [toDigitsCore_value 16 (by omega) (by omega) (n + 1) n [] (by omega)]
  simp

theorem readDigits_decStr (n : Nat) : readDigits 10 (decStr n) = n := by
  unfold readDigits decStr Nat.toDigits
  rw [toDigitsCore_value 10 (by omega) (by omega) (n + 1) n [] (by omega)]
  simp

theorem keyStr_stride (key : Nat) :
    keyStr key true
      = (if toInt64 key < 0 then "-0x" ++ hexStr (toInt64 key).natAbs
          else "0x" ++ hexStr (toInt64 key).toNat) ++ "/" := by
  unfold keyStr toInt64
  simp only [if_true]
  by_cases h : 2 ^ 63 ≤ key % 2 ^ 64
  · have hlt : ¬ key % 2 ^ 64 < 2 ^ 63 := by omega
    have hneg : ((key % 2 ^ 64 : Nat) : Int) - 2 ^ 64 < 0 := by omega
    have habs : (((key % 2 ^ 64 : Nat) : Int) - 2 ^ 64).natAbs = 2 ^ 64 - key % 2 ^ 64 := by
      omega
    rw [if_pos h, if_neg hlt, if_pos hneg, habs]
  · have hlt : key % 2 ^ 64 < 2 ^ 63 := by omega
    have hneg : ¬ (((key % 2 ^ 64 : Nat) : Int)) < 0 := by omega
    rw [if_neg h, if_pos hlt, if_neg hneg, Int.toNat_ofNat]

/-- C16: a stride key `k` is written from its signed reading `s`: `0x` and
the hexadecimal digits of `s` when `s` is not negative, `-0x` and the
hexadecimal digits of `|s|` when it is; a value key is written as `0x` and
its hexadecimal digits, unsigned. The count and the percentage that follow
are written in decimal. The digits written denote the number: reading them
back in base 16, or 10, gives it. A slot that shows an entry has this text. -/
theorem stride_rendering (p : Nat × Nat) (eff_count : Nat) :
    entryStr p true eff_count
        = (if toInt64 p.1 < 0 then "-0x" ++ hexStr (toInt64 p.1).natAbs
            else "0x" ++ hexStr (toInt64 p.1).toNat)
          ++ "/" ++ decStr p.2 ++ "/" ++ decStr (100 * p.2 / eff_count) ++ "%"
      ∧ entryStr p false eff_count
        = "0x" ++ hexStr p.1 ++ "/" ++ decStr p.2 ++ "/" ++ decStr (100 * p.2 / eff_count)
          ++ "%"
      ∧ (∀ n, readDigits 16 (hexStr n) = n)
      ∧ (∀ n, readDigits 10 (decStr n) = n)
      ∧ (∀ patterns stride i, patterns[i]? = some p → eff_count ≠ 0 →
          slotStr patterns stride eff_count i = some (entryStr p stride eff_count)) := by
  refine ⟨?_, ?_, readDigits_hexStr, readDigits_decStr, ?_⟩
  · unfold entryStr
    rw [keyStr_stride]
  · unfold entryStr keyStr
    simp only [Bool.false_eq_true, if_false]
  · intro patterns stride i hp he
    unfold slotStr
    rw [hp]
    simp only [he, if_false]

/-- The strides -8 and 3 and the value 100 with count 1 out of 4:
`-0x8/1/25%`, `0x3/1/25%` and `0x64/1/25%`; the stride `-2 ^ 63` is written
with its magnitude. -/
theorem rendering_example :
    entryStr (2 ^ 64 - 8, 1) true 4 = "-0x8/1/25%"
      ∧ entryStr (3, 1) true 4 = "0x3/1/25%"
      ∧ entryStr (100, 1) false 4 = "0x64/1/25%"
      ∧ entryStr (2 ^ 64 - 8, 1) false 4 = "0xfffffffffffffff8/1/25%"
      ∧ entryStr (2 ^ 63, 12) true 24 = "-0x8000000000000000/12/50%" := by
  decide


/-! ## Counts, totals and the mass of the distributions -/

/-- C17: in every reachable state every profile has a retire count of at
least 1, so the average latency is defined; when its stride distribution is
not empty the count is at least 2 and `eff_count = count - 1` is not zero;
when its value distribution is not empty `eff_count = count` is not zero;
and `get_pattern` reaches no division by zero for either distribution. -/
theorem no_division_by_zero (t : InstTracker) (h : Reachable t) (e : Nat × ImemInst)
    (he : e ∈ t.tracked_insts_) :
    1 ≤ e.2.count_
      ∧ (e.2.stride_map_ ≠ [] → 2 ≤ e.2.count_ ∧ e.2.effCount true ≠ 0)
      ∧ (e.2.value_map_ ≠ [] → e.2.effCount false ≠ 0)
      ∧ (e.2.get_pattern e.2.value_map_ false).isSome = true
      ∧ (e.2.get_pattern e.2.stride_map_ true).isSome = true := by
  obtain ⟨hok, hcount⟩ := (trackedOk_of_reachable t h) e he
  have hsome : ∀ stride, (e.2.get_pattern (e.2.distOf stride) stride).isSome = true := by
    intro stride
    have heff := effCount_ne_zero e.2 hok stride
    rw [get_pattern_of_slots e.2 _ stride _ _ _ _
      (slotStr_eq_slotText _ _ _ 0 heff) (slotStr_eq_slotText _ _ _ 1 heff)
      (slotStr_eq_slotText _ _ _ 2 heff) (slotStr_eq_slotText _ _ _ 3 heff)]
    rfl
  refine ⟨hcount, ?_, ?_, hsome false, hsome true⟩
  · intro hne
    obtain ⟨x, hx⟩ := List.exists_mem_of_ne_nil _ hne
    have h1 := hok.stride_pos x hx
    have h2 := le_distTotal_of_mem _ x hx
    have h3 := hok.stride_total
    simp only [ImemInst.effCount, if_true]
    omega
  · intro _
    simp only [ImemInst.effCount, Bool.false_eq_true, if_false]
    omega

/-- The profile of the example trace has count 5 and four strides. -/
theorem no_division_by_zero_witness :
    Reachable (InstTracker.empty.run exampleTrace)
      ∧ (4096, exampleProfile) ∈ (InstTracker.empty.run exampleTrace).tracked_insts_
      ∧ 1 ≤ exampleProfile.count_
      ∧ exampleProfile.total_latency_ / exampleProfile.count_ = 4 :=
  ⟨⟨exampleTrace, rfl⟩, by decide,
    (no_division_by_zero (InstTracker.empty.run exampleTrace) ⟨exampleTrace, rfl⟩
      (4096, exampleProfile) (by decide)).1,
    by decide⟩

theorem countSum_mapSet_of_not_mem (m : List (Nat × ImemInst)) (k : Nat) (v : ImemInst)
    (h : k ∉ mapKeys m) : countSum (mapSet m k v) = countSum m + v.count_ := by
  induction m with
  | nil => simp [mapSet, countSum]
  | cons x rest ih =>
    obtain ⟨k', v'⟩ := x
    have hk : ¬ k' = k := by
      intro hh
      apply h
      simp [mapKeys, hh]
    have hr : k ∉ mapKeys rest := by
      intro hh
      apply h
      simp only [mapKeys, List.map_cons, List.mem_cons]
      exact Or.inr hh
    have := ih hr
    simp only [countSum] at this
    simp only [mapSet, hk, if_false, countSum, List.map_cons, List.sum_cons, this]
    omega

theorem countSum_mapSet_of_find (m : List (Nat × ImemInst)) (k : Nat) (v p : ImemInst)
    (h : mapFind m k = some p) :
    countSum (mapSet m k v) + p.count_ = countSum m + v.count_ := by
  induction m with
  | nil => simp [mapFind] at h
  | cons x rest ih =>
    obtain ⟨k', v'⟩ := x
    by_cases hk : k' = k
    · simp only [mapFind, hk, if_true, Option.some.injEq] at h
      subst h
      simp only [mapSet, hk, if_true, countSum, List.map_cons, List.sum_cons]
      omega
    · simp only [mapFind, hk, if_false] at h
      have := ih h
      simp only [countSum] at this
      simp only [mapSet, hk, if_false, countSum, List.map_cons, List.sum_cons]
      omega

theorem addInstRetire_countSum (t : InstTracker) (seq_no addr value latency : Nat) :
    countSum (t.addInstRetire seq_no addr value latency).tracked_insts_
        + (if mapCount t.inflight_insts_ seq_no = 0 then 1 else 0)
      = countSum t.tracked_insts_ + 1 := by
  by_cases hmem : seq_no ∈ mapKeys t.inflight_insts_
  · have hc : ¬ mapCount t.inflight_insts_ seq_no = 0 := fun h0 =>
      (mapCount_eq_zero_iff _ _).mp h0 hmem
    obtain ⟨d, hd⟩ := mapFind_some_of_mem _ _ hmem
    rw [addInstRetire_tracked_of_find t seq_no addr value latency d hd, if_neg hc]
    cases hf : mapFind t.tracked_insts_ d.pc_ with
    | none =>
      rw [countSum_mapSet_of_not_mem _ _ _ ((mapFind_eq_none_iff _ _).mp hf)]
      simp only [Option.getD_none, addDynInst_count]
      rfl
    | some p =>
      have := countSum_mapSet_of_find t.tracked_insts_ d.pc_
        (p.addDynInst (d.setFinalInfo addr value latency)) p hf
      simp only [Option.getD_some]
      rw [addDynInst_count] at this
      omega
  · rw [addInstRetire_tracked, beforeSweep_of_not_mem t seq_no addr value latency hmem,
      if_pos ((mapCount_eq_zero_iff _ _).mpr hmem)]

theorem run_count_balance (evs : List Event) : ∀ t : InstTracker,
    (t.run evs).total_count_ + countSum t.tracked_insts_
      = countSum (t.run evs).tracked_insts_ + missedRetires t evs + t.total_count_ := by
  induction evs with
  | nil =>
    intro t
    simp only [InstTracker.run, List.foldl, missedRetires]
    omega
  | cons ev rest ih =>
    intro t
    rw [run_cons]
    have hrec := ih (t.step ev)
    cases ev with
    | issue seq_no pc piece is_candidate cache_hit =>
      simp only [missedRetires]
      simp only [InstTracker.step] at hrec ⊢
      rw [addInstIssue_tracked] at hrec
      have htot : (t.addInstIssue seq_no pc piece is_candidate cache_hit).total_count_
          = t.total_count_ := by
        simp only [InstTracker.addInstIssue]
        split <;> rfl
      omega
    | exec seq_no inst_class src1 src2 src3 dst =>
      simp only [missedRetires]
      simp only [InstTracker.step] at hrec ⊢
      rw [addInstExec_tracked] at hrec
      have htot : (t.addInstExec seq_no inst_class src1 src2 src3 dst).total_count_
          = t.total_count_ := by
        simp only [InstTracker.addInstExec]
        split
        · rfl
        · split <;> rfl
      omega
    | retire seq_no addr value latency =>
      simp only [missedRetires]
      simp only [InstTracker.step] at hrec ⊢
      have h1 := addInstRetire_countSum t seq_no addr value latency
      have h2 := addInstRetire_total t seq_no addr value latency
      omega

theorem dumpStep_run_count (total_count : Nat) (s : DumpState) (x : Nat × ImemInst) :
    (dumpStep total_count s x).run_count = s.run_count + x.2.count_ := by
  simp only [dumpStep]
  split
  · rfl
  · split <;> rfl

theorem dumpLoop_run_count (total_count : Nat) (tracked : List (Nat × ImemInst)) :
    (dumpLoop total_count tracked).run_count = countSum tracked := by
  induction tracked using List.reverseRecOn with
  | nil => rfl
  | append_singleton rest x ih =>
    rw [dumpLoop_snoc, dumpStep_run_count, ih]
    simp [countSum]

theorem countSum_append (a b : List (Nat × ImemInst)) :
    countSum (a ++ b) = countSum a + countSum b := by
  simp [countSum]

/-- C18: after any sequence of calls from the empty tracker, the retire
counts of the profiles and the number of `retire` calls that found no record
add up to the total retired counter; so the counts sum to at most the total,
and to exactly the total when no `retire` call found no record, and only
then. In `dumpImem` the running count after any part of the table is the sum
of the counts seen so far: it does not decrease from one profile to the next
and is at most the total. -/
theorem counts_within_total (evs : List Event) :
    countSum (InstTracker.empty.run evs).tracked_insts_ + missedRetires InstTracker.empty evs
        = (InstTracker.empty.run evs).total_count_
      ∧ countSum (InstTracker.empty.run evs).tracked_insts_
          ≤ (InstTracker.empty.run evs).total_count_
      ∧ (countSum (InstTracker.empty.run evs).tracked_insts_
            = (InstTracker.empty.run evs).total_count_
          ↔ missedRetires InstTracker.empty evs = 0)
      ∧ (∀ seen x rest, (InstTracker.empty.run evs).tracked_insts_ = seen ++ x :: rest →
          (dumpLoop (InstTracker.empty.run evs).total_count_ seen).run_count
              ≤ (dumpLoop (InstTracker.empty.run evs).total_count_ (seen ++ [x])).run_count
            ∧ (dumpLoop (InstTracker.empty.run evs).total_count_ (seen ++ [x])).run_count
              ≤ (InstTracker.empty.run evs).total_count_) := by
  have hbal := run_count_balance evs InstTracker.empty
  have h0 : countSum InstTracker.empty.tracked_insts_ = 0 := rfl
  have ht0 : InstTracker.empty.total_count_ = 0 := rfl
  rw [h0, ht0] at hbal
  refine ⟨by omega, by omega, by omega, ?_⟩
  intro seen x rest hsplit
  rw [dumpLoop_run_count, dumpLoop_run_count, countSum_append]
  have hsum : countSum (InstTracker.empty.run evs).tracked_insts_
      = countSum (seen ++ [x]) + countSum rest := by
    rw [hsplit, ← countSum_append]
    simp
  rw [countSum_append] at hsum
  omega

/-- A run with one retirement that finds no record: the counts sum to 2, the
total is 3. -/
theorem counts_example :
    countSum (InstTracker.empty.run
        [.issue 1 4096 0 true 1, .retire 1 0 10 5, .retire 9 0 0 0, .issue 10 4100 0 false 1,
         .retire 10 0 3 2]).tracked_insts_ = 2
      ∧ (InstTracker.empty.run
        [.issue 1 4096 0 true 1, .retire 1 0 10 5, .retire 9 0 0 0, .issue 10 4100 0 false 1,
         .retire 10 0 3 2]).total_count_ = 3
      ∧ missedRetires InstTracker.empty
        [.issue 1 4096 0 true 1, .retire 1 0 10 5, .retire 9 0 0 0, .issue 10 4100 0 false 1,
         .retire 10 0 3 2] = 1 := by
  decide

/-- C19: in every reachable state, the occurrence counts of the value
distribution of a candidate profile sum to its retire count, and those of its
stride distribution to at most the retire count minus one. -/
theorem distribution_mass (t : InstTracker) (h : Reachable t) (e : Nat × ImemInst)
    (he : e ∈ t.tracked_insts_) (hc : e.2.is_candidate_ = true) :
    distTotal e.2.value_map_ = e.2.count_
      ∧ distTotal e.2.stride_map_ ≤ e.2.count_ - 1 :=
  ⟨((trackedOk_of_reachable t h) e he).1.value_total hc,
    ((trackedOk_of_reachable t h) e he).1.stride_total⟩

/-- The profile of the example trace: five values, four strides. -/
theorem distribution_mass_witness :
    Reachable (InstTracker.empty.run exampleTrace)
      ∧ (4096, exampleProfile) ∈ (InstTracker.empty.run exampleTrace).tracked_insts_
      ∧ exampleProfile.is_candidate_ = true
      ∧ (distTotal exampleProfile.value_map_ = exampleProfile.count_
          ∧ distTotal exampleProfile.stride_map_ ≤ exampleProfile.count_ - 1)
      ∧ distTotal exampleProfile.value_map_ = 5
      ∧ distTotal exampleProfile.stride_map_ = 4 :=
  ⟨⟨exampleTrace, rfl⟩, by decide, rfl,
    distribution_mass (InstTracker.empty.run exampleTrace) ⟨exampleTrace, rfl⟩
      (4096, exampleProfile) (by decide) rfl,
    by decide, by decide⟩


end wangh
